import Mathlib

/-!
# Verification of the data-governance-service classification kernel

Shallow embedding, in Lean 4, of the parts of the Go repository
`data-governance-service` that the frozen claims talk about:

* the checkpoint recovery computation (`calculateRemainingChunks`),
* the deduplication service (`generateHash`, `normalizeValue`,
  `deduplicateLevel1`, `deduplicateLevel2`, `Deduplicate`),
* the LLM input builder (`GenerateInput`),
* the LLM dispatcher count-mismatch repair (`fixCountMismatch`),
* the v1 Spanish refinery pipeline and its processing nodes.

Go strings are modelled at the granularity the Go code works at:
byte lists (`List Nat`, each element `< 256`) for the deduplication
package, whose helpers index bytes directly, and rune lists
(`List Char`) for the refinery, whose nodes range over runes.
-/

namespace AssocMap

/-- Lookup in an association-list model of a Go `map`. -/
def find (m : List (String × α)) (k : String) : Option α :=
  (m.find? (fun kv => kv.1 = k)).map (fun kv => kv.2)

/-- Insert-or-replace in an association-list model of a Go `map`. -/
def insert (m : List (String × α)) (k : String) (v : α) :
    List (String × α) :=
  if (m.find? (fun kv => kv.1 = k)).isSome then
    m.map (fun kv => if kv.1 = k then (k, v) else kv)
  else
    m ++ [(k, v)]

end AssocMap

/-- Scalar values carried in `map[string]interface{}` payloads of the
LLM-input builder and the LLM service (strings at rune granularity). -/
inductive JValue where
  | jstr (s : String)
  | jint (n : Int)
  | jbool (b : Bool)
  | jnull
  deriving Repr, DecidableEq

namespace Checkpoint

/-- Checkpoint state relevant to recovery, from `BatchCheckpoint` in
`checkpoint_service.go`: `TotalChunks int` and `ProcessedChunks []int`. -/
structure BatchCheckpoint where
  totalChunks : Int
  processedChunks : List Int
  deriving Repr, DecidableEq

/-- Embeds `calculateRemainingChunks`: builds the `processed` set and collects
every `i` with `0 ≤ i < TotalChunks` that is not in it, in ascending order.
The Go loop `for i := 0; i < cp.TotalChunks; i++` runs `max TotalChunks 0`
times, hence the `Int.toNat`. -/
def calculateRemainingChunks (cp : BatchCheckpoint) : List Int :=
  ((List.range cp.totalChunks.toNat).map (Nat.cast : Nat → Int)).filter
    (fun i => ¬ cp.processedChunks.contains i)

end Checkpoint

namespace Dedup

/-- Go strings at byte granularity: the deduplication helpers
(`trimWhitespace`, `toLowerCase`) index bytes of the string directly. -/
abbrev GoStr := List Nat

/-- Embeds `isWhitespace` from the deduplication package:
space, tab, newline, carriage return. -/
def isWhitespace (b : Nat) : Bool :=
  b = 32 || b = 9 || b = 10 || b = 13

/-- Embeds `trimWhitespace`: advance `start` over leading whitespace bytes,
retreat `end` over trailing whitespace bytes, slice. -/
def trimWhitespace (s : GoStr) : GoStr :=
  ((s.dropWhile isWhitespace).reverse.dropWhile isWhitespace).reverse

/-- Embeds `toLowerCase`: byte-wise, adds 32 to bytes in `'A'..'Z'` only.
Multi-byte (non-ASCII) characters are left untouched. -/
def toLowerCase (s : GoStr) : GoStr :=
  s.map (fun c => if 65 ≤ c && c ≤ 90 then c + 32 else c)

/-- Scalar JSON values carried in `Record.Data` (`map[string]interface{}`
holding parsed scalars: strings, numbers, booleans, null). -/
inductive Value where
  | vstr (bytes : GoStr)
  | vint (n : Int)
  | vbool (b : Bool)
  | vnull
  deriving Repr, DecidableEq

/-- Embeds the `Config` struct of the deduplication package
(fields that the hashing and dedup logic reads). -/
structure Config where
  cleanFields : List GoStr
  enableLevel2 : Bool
  storeHashes : Bool
  caseSensitive : Bool
  trimWs : Bool
  deriving Repr, DecidableEq

/-- Embeds `DefaultConfig()`: `cleanLineDescription`, level 2 off,
store hashes, case-insensitive, trim whitespace. -/
def DefaultConfig : Config where
  cleanFields := [[99, 108, 101, 97, 110, 76, 105, 110, 101, 68, 101, 115,
    99, 114, 105, 112, 116, 105, 111, 110]]
  enableLevel2 := false
  storeHashes := true
  caseSensitive := false
  trimWs := true

/-- Embeds `normalizeValue`: strings are trimmed (if `TrimWhitespace`) and
byte-lowercased (if not `CaseSensitive`); non-strings pass through. -/
def normalizeValue (val : Value) (config : Config) : Value :=
  match val with
  | .vstr s =>
      let s1 := if config.trimWs then trimWhitespace s else s
      let s2 := if config.caseSensitive then s1 else toLowerCase s1
      .vstr s2
  | v => v

/-- Association-list model of a Go `map`: lookup by key. -/
def mapLookup (m : List (GoStr × Value)) (k : GoStr) : Option Value :=
  (m.find? (fun kv => kv.1 = k)).map (fun kv => kv.2)

/-- Association-list model of a Go `map`: insert-or-replace. -/
def mapInsert (m : List (GoStr × Value)) (k : GoStr) (v : Value) :
    List (GoStr × Value) :=
  if (m.find? (fun kv => kv.1 = k)).isSome then
    m.map (fun kv => if kv.1 = k then (k, v) else kv)
  else
    m ++ [(k, v)]

/-- Lowercase hexadecimal digit for a value below 16, as an ASCII byte
(mirrors `encoding/hex`, which emits lowercase). -/
def hexDigit (n : Nat) : Nat :=
  if n < 10 then 48 + n else 87 + n

/-- JSON escaping of one byte as done by `encoding/json` with HTML escaping
on: quote, backslash, `\n`, `\r`, `\t` use two-byte escapes; other control
bytes and `<`, `>`, `&` use `\u00XX`; all remaining bytes (including the
bytes of multi-byte UTF-8 characters) pass through. -/
def escapeByte (b : Nat) : GoStr :=
  if b = 34 then [92, 34]
  else if b = 92 then [92, 92]
  else if b = 10 then [92, 110]
  else if b = 13 then [92, 114]
  else if b = 9 then [92, 116]
  else if b < 32 || b = 60 || b = 62 || b = 38 then
    [92, 117, 48, 48, hexDigit (b / 16), hexDigit (b % 16)]
  else [b]

/-- JSON string literal: quote, escaped bytes, quote. -/
def encodeJSONString (s : GoStr) : GoStr :=
  34 :: (s.map escapeByte).flatten ++ [34]

/-- JSON encoding of a scalar `Value` (as `encoding/json` renders it). -/
def encodeValue (v : Value) : GoStr :=
  match v with
  | .vstr s => encodeJSONString s
  | .vint n => (toString n).toList.map Char.toNat
  | .vbool true => [116, 114, 117, 101]
  | .vbool false => [102, 97, 108, 115, 101]
  | .vnull => [110, 117, 108, 108]

/-- Byte-wise lexicographic order on Go strings, as used by `sort.Strings`
inside `encoding/json` for map keys. -/
def lexLe : GoStr → GoStr → Bool
  | [], _ => true
  | _ :: _, [] => false
  | a :: as, b :: bs => a < b || (a = b && lexLe as bs)

/-- Insertion into a key-sorted association list. -/
def insertSorted (p : GoStr × Value) :
    List (GoStr × Value) → List (GoStr × Value)
  | [] => [p]
  | q :: t => if lexLe p.1 q.1 then p :: q :: t else q :: insertSorted p t

/-- Sort an association list by key, byte-lexicographically. -/
def sortByKey (m : List (GoStr × Value)) : List (GoStr × Value) :=
  m.foldr insertSorted []

/-- `json.Marshal` of a `map[string]interface{}`: object with keys in
lexicographic order, compact separators. `0x7B`/`0x7D` are the brace
bytes, `0x2C` the comma, `0x3A` the colon. -/
def marshalMap (m : List (GoStr × Value)) : GoStr :=
  let body := ((sortByKey m).map
    (fun kv => encodeJSONString kv.1 ++ 58 :: encodeValue kv.2)).intersperse [44]
  123 :: body.flatten ++ [125]

/-- 32-bit right rotation on `Nat`, truncated to 32 bits. -/
def rotr32 (x n : Nat) : Nat :=
  ((x >>> n) ||| (x <<< (32 - n))) % 4294967296

/-- SHA-256 round constants (FIPS 180-4), written in decimal. -/
def sha256K : List Nat :=
  [1116352408, 1899447441, 3049323471, 3921009573,
   961987163, 1508970993, 2453635748, 2870763221,
   3624381080, 310598401, 607225278, 1426881987,
   1925078388, 2162078206, 2614888103, 3248222580,
   3835390401, 4022224774, 264347078, 604807628,
   770255983, 1249150122, 1555081692, 1996064986,
   2554220882, 2821834349, 2952996808, 3210313671,
   3336571891, 3584528711, 113926993, 338241895,
   666307205, 773529912, 1294757372, 1396182291,
   1695183700, 1986661051, 2177026350, 2456956037,
   2730485921, 2820302411, 3259730800, 3345764771,
   3516065817, 3600352804, 4094571909, 275423344,
   430227734, 506948616, 659060556, 883997877,
   958139571, 1322822218, 1537002063, 1747873779,
   1955562222, 2024104815, 2227730452, 2361852424,
   2428436474, 2756734187, 3204031479, 3329325298]

/-- SHA-256 initial hash state (FIPS 180-4), written in decimal. -/
def sha256H0 : List Nat :=
  [1779033703, 3144134277, 1013904242, 2773480762,
   1359893119, 2600822924, 528734635, 1541459225]

/-- Big-endian bytes of a value, `k` bytes wide. -/
def beBytes (k : Nat) (n : Nat) : List Nat :=
  (List.range k).map (fun i => (n >>> (8 * (k - 1 - i))) % 256)

/-- SHA-256 padding: `0x80`, zeros to 56 mod 64, 8-byte big-endian
bit length. -/
def sha256Pad (msg : List Nat) : List Nat :=
  let L := msg.length
  let z := (64 + 56 - ((L + 1) % 64)) % 64
  msg ++ 128 :: List.replicate z 0 ++ beBytes 8 (8 * L)

/-- Split a byte list into 64-byte blocks (the fuel, at least the list
length, makes the recursion structural; each step consumes at least one
byte). -/
def blocks64Go : Nat → List Nat → List (List Nat)
  | 0, _ => []
  | _, [] => []
  | fuel + 1, l => (l.take 64) :: blocks64Go fuel (l.drop 64)

/-- Split a byte list into 64-byte blocks. -/
def blocks64 (l : List Nat) : List (List Nat) :=
  blocks64Go l.length l

/-- The sixteen 32-bit big-endian words of one 64-byte block. -/
def blockWords (block : List Nat) : List Nat :=
  (List.range 16).map (fun i =>
    (block.getD (4 * i) 0) * 16777216 + (block.getD (4 * i + 1) 0) * 65536 +
    (block.getD (4 * i + 2) 0) * 256 + block.getD (4 * i + 3) 0)

/-- Message-schedule extension step: append words 16..63. -/
def extendWords : List Nat → Nat → List Nat
  | w, 0 => w
  | w, n + 1 =>
      let i := w.length
      let w15 := w.getD (i - 15) 0
      let w2 := w.getD (i - 2) 0
      let s0 := rotr32 w15 7 ^^^ rotr32 w15 18 ^^^ (w15 >>> 3)
      let s1 := rotr32 w2 17 ^^^ rotr32 w2 19 ^^^ (w2 >>> 10)
      extendWords (w ++ [(w.getD (i - 16) 0 + s0 + w.getD (i - 7) 0 + s1) % 4294967296]) n

/-- One SHA-256 compression round. -/
def sha256Round (st : List Nat) (kw : Nat × Nat) : List Nat :=
  match st with
  | [a, b, c, d, e, f, g, h] =>
      let S1 := rotr32 e 6 ^^^ rotr32 e 11 ^^^ rotr32 e 25
      let ch := (e &&& f) ^^^ ((4294967295 - e % 4294967296) &&& g)
      let t1 := (h + S1 + ch + kw.1 + kw.2) % 4294967296
      let S0 := rotr32 a 2 ^^^ rotr32 a 13 ^^^ rotr32 a 22
      let maj := (a &&& b) ^^^ (a &&& c) ^^^ (b &&& c)
      let t2 := (S0 + maj) % 4294967296
      [(t1 + t2) % 4294967296, a, b, c, (d + t1) % 4294967296, e, f, g]
  | st => st

/-- SHA-256 compression of one block into the running state. -/
def sha256Compress (st : List Nat) (block : List Nat) : List Nat :=
  let w := extendWords (blockWords block) 48
  let out := (sha256K.zip w).foldl sha256Round st
  (st.zip out).map (fun p => (p.1 + p.2) % 4294967296)

/-- SHA-256 of a byte list, as 32 bytes. -/
def sha256 (msg : List Nat) : List Nat :=
  let final := (blocks64 (sha256Pad msg)).foldl sha256Compress sha256H0
  (final.map (beBytes 4)).flatten

/-- `hex.EncodeToString`: two lowercase hex digits per byte. -/
def hexEncode (bytes : List Nat) : GoStr :=
  (bytes.map (fun b => [hexDigit (b / 16), hexDigit (b % 16)])).flatten

/-- Embeds the `Record` struct of the deduplication package. -/
structure Record where
  rowIndex : Int
  data : List (GoStr × Value)
  hash : GoStr
  deriving Repr, DecidableEq

/-- The normalized field-to-value mapping that `generateHash` builds:
for each requested field present in the record, the normalized value. -/
def hashDataOf (record : Record) (fields : List GoStr) (config : Config) :
    List (GoStr × Value) :=
  fields.foldl
    (fun m f =>
      match mapLookup record.data f with
      | some v => mapInsert m f (normalizeValue v config)
      | none => m) []

/-- Embeds `generateHash`: extract the requested fields, normalize,
`json.Marshal` (keys sorted), SHA-256, lowercase hex.  The Go function's
only error path is a `json.Marshal` failure, which cannot occur for
scalar values, so the embedding is total. -/
def generateHash (record : Record) (fields : List GoStr) (config : Config) :
    GoStr :=
  hexEncode (sha256 (marshalMap (hashDataOf record fields config)))

/-- Embeds `HashEntry`. -/
structure HashEntry where
  hash : GoStr
  originalRowIndex : Int
  kept : Bool
  deriving Repr, DecidableEq

/-- Embeds the result struct of the deduplication service (the wall-clock
`ProcessingTimeMs` field is real time and is not modelled). -/
structure DedupResult where
  originalCount : Nat
  deduplicatedCount : Nat
  removedCount : Nat
  records : List Record
  level1Duplicates : Nat
  level2Duplicates : Nat
  deriving Repr, DecidableEq

/-- The `HashRepository` interface, as pure fallible operations: the
context argument is dropped and each call either succeeds or fails with
an error message. -/
structure HashRepository where
  checkHashExists : GoStr → Except (List Nat) Bool
  saveHashes : List HashEntry → Except (List Nat) Unit

/-- Loop of `deduplicateLevel1`: `seen` set, `unique` accumulator and
duplicate counter.  A record whose hash is empty is skipped with a warning
and is counted neither as unique nor as duplicate. -/
def level1Loop (seen : List GoStr) : List Record → List Record × Nat
  | [] => ([], 0)
  | r :: rest =>
      if r.hash = [] then level1Loop seen rest
      else if seen.contains r.hash then
        let (u, d) := level1Loop seen rest
        (u, d + 1)
      else
        let (u, d) := level1Loop (r.hash :: seen) rest
        (r :: u, d)

/-- Embeds `deduplicateLevel1`.  The Go function's declared error is never
produced; the `Except` mirrors the signature. -/
def deduplicateLevel1 (records : List Record) :
    Except (List Nat) DedupResult :=
  let (unique, duplicates) := level1Loop [] records
  .ok
    { originalCount := records.length
      deduplicatedCount := unique.length
      removedCount := duplicates
      records := unique
      level1Duplicates := 0
      level2Duplicates := 0 }

/-- Loop of `deduplicateLevel2`: a failed existence check keeps the record
(fail-open); an existing hash drops it and counts a duplicate. -/
def level2Loop (check : GoStr → Except (List Nat) Bool) :
    List Record → List Record × Nat
  | [] => ([], 0)
  | r :: rest =>
      match check r.hash with
      | .error _ =>
          let (u, d) := level2Loop check rest
          (r :: u, d)
      | .ok true =>
          let (u, d) := level2Loop check rest
          (u, d + 1)
      | .ok false =>
          let (u, d) := level2Loop check rest
          (r :: u, d)

/-- Embeds `deduplicateLevel2`.  With no repository the records pass
through; otherwise each hash is checked, failing open per record.  As in
the source, no error is ever returned. -/
def deduplicateLevel2 (hashRepo : Option HashRepository)
    (records : List Record) : Except (List Nat) DedupResult :=
  match hashRepo with
  | none =>
      .ok
        { originalCount := records.length
          deduplicatedCount := records.length
          removedCount := 0
          records := records
          level1Duplicates := 0
          level2Duplicates := 0 }
  | some repo =>
      let (unique, duplicates) := level2Loop repo.checkHashExists records
      .ok
        { originalCount := records.length
          deduplicatedCount := unique.length
          removedCount := duplicates
          records := unique
          level1Duplicates := 0
          level2Duplicates := 0 }

/-- Embeds `generateHashes`: stamp every record with its hash.  The
declared error (marshal failure) cannot occur for scalar values. -/
def generateHashes (config : Config) (records : List Record) :
    Except (List Nat) (List Record) :=
  .ok (records.map (fun r =>
    { r with hash := generateHash r config.cleanFields config }))

/-- Embeds `storeHashes`: entries for every hashed input row, `kept`
marking membership of its row index in the final set. -/
def storeHashes (repo : HashRepository) (original final : List Record) :
    Except (List Nat) Unit :=
  let keptIndices := final.map (fun r => r.rowIndex)
  let entries := original.map (fun r =>
    { hash := r.hash
      originalRowIndex := r.rowIndex
      kept := keptIndices.contains r.rowIndex : HashEntry })
  repo.saveHashes entries

/-- Embeds `Deduplicate`: hash, level 1, optional level 2 (falling back to
the level-1 records if level 2 errored), optional hash storage whose
failure is logged and ignored. -/
def Deduplicate (config : Config) (hashRepo : Option HashRepository)
    (records : List Record) : Except (List Nat) DedupResult :=
  if records = [] then
    .ok
      { originalCount := 0, deduplicatedCount := 0, removedCount := 0
        records := [], level1Duplicates := 0, level2Duplicates := 0 }
  else do
    let hashed ← generateHashes config records
    let level1Result ← deduplicateLevel1 hashed
    let (finalRecords, level2Duplicates) :=
      if config.enableLevel2 && hashRepo.isSome then
        match deduplicateLevel2 hashRepo level1Result.records with
        | .error _ => (level1Result.records, 0)
        | .ok level2Result => (level2Result.records, level2Result.removedCount)
      else (level1Result.records, 0)
    let _ :=
      if config.storeHashes && hashRepo.isSome then
        match hashRepo with
        | some repo => (storeHashes repo hashed finalRecords).toOption
        | none => none
      else none
    .ok
      { originalCount := records.length
        deduplicatedCount := finalRecords.length
        removedCount := records.length - finalRecords.length
        records := finalRecords
        level1Duplicates := level1Result.removedCount
        level2Duplicates := level2Duplicates }

/-- A repository whose persistence operations always fail (a down
database): every existence check and every save errors out. -/
def failingRepo : HashRepository where
  checkHashExists := fun _ => .error [100, 98]
  saveHashes := fun _ => .error [100, 98]

/-- Two byte strings differ only by ASCII letter case: same length, and
at each position the bytes are equal or form an ASCII upper/lower pair. -/
def asciiCaseVariant : GoStr → GoStr → Bool
  | [], [] => true
  | a :: as, b :: bs =>
      (a = b || (65 ≤ a && a ≤ 90 && b = a + 32) ||
        (65 ≤ b && b ≤ 90 && a = b + 32)) && asciiCaseVariant as bs
  | _, _ => false

end Dedup

namespace LLMInput

/-- Embeds the `Record` struct of the `llm_input` package. -/
structure Record where
  rowIndex : Int
  originalData : List (String × JValue)
  cleanedData : List (String × JValue)
  deriving Repr, DecidableEq

/-- Embeds `CleanRecord`: row index plus the projected data map. -/
structure CleanRecord where
  rowIndex : Int
  data : List (String × JValue)
  deriving Repr, DecidableEq

/-- Embeds the fields of `GeneratorConfig` that `GenerateInput` reads. -/
structure GeneratorConfig where
  onlyCleanFields : Bool
  fieldsToInclude : List String
  deriving Repr, DecidableEq

/-- The generated input: the record list plus the metadata fields the
claims are about.  The random batch UUID, the generation timestamp and
the token-estimate statistics are environment-dependent and are not
modelled. -/
structure LLMInputData where
  totalRecords : Nat
  fields : List String
  records : List CleanRecord
  deriving Repr, DecidableEq

/-- Embeds `DetectCleanFields`: fields of `CleanedData` whose lowercased
name starts with `clean`; if none, the same scan over `OriginalData`.
(Go map iteration order is unspecified; the embedding iterates in
association-list order.) -/
def DetectCleanFields (record : Record) : List String :=
  let fromCleaned := (record.cleanedData.map (fun kv => kv.1)).filter
    (fun f => f.toLower.startsWith "clean")
  if fromCleaned = [] then
    (record.originalData.map (fun kv => kv.1)).filter
      (fun f => f.toLower.startsWith "clean")
  else fromCleaned

/-- The projected data map of one record: each requested field present in
the data source is copied over. -/
def cleanDataOf (config : GeneratorConfig) (fieldsToInclude : List String)
    (record : Record) : List (String × JValue) :=
  let dataSource :=
    if !config.onlyCleanFields && record.originalData ≠ [] then
      record.originalData
    else record.cleanedData
  fieldsToInclude.foldl
    (fun m f =>
      match AssocMap.find dataSource f with
      | some v => AssocMap.insert m f v
      | none => m) []

/-- Record-building loop of `GenerateInput`: a record whose projected data
map is empty is skipped with a warning. -/
def buildCleanRecords (config : GeneratorConfig)
    (fieldsToInclude : List String) : List Record → List CleanRecord
  | [] => []
  | r :: rest =>
      let cleanData := cleanDataOf config fieldsToInclude r
      if cleanData = [] then buildCleanRecords config fieldsToInclude rest
      else { rowIndex := r.rowIndex, data := cleanData } ::
        buildCleanRecords config fieldsToInclude rest

/-- Embeds `GenerateInput`: reject an empty record list, resolve the field
list (detecting `clean*` fields when none is configured), reject an empty
field list, then build the projected records. -/
def GenerateInput (records : List Record) (config : GeneratorConfig) :
    Except String LLMInputData :=
  if records = [] then .error "no records provided"
  else
    let fieldsToInclude :=
      if config.fieldsToInclude = [] then
        DetectCleanFields (records.headD
          { rowIndex := 0, originalData := [], cleanedData := [] })
      else config.fieldsToInclude
    if fieldsToInclude = [] then .error "no clean fields detected"
    else
      let cleanRecords := buildCleanRecords config fieldsToInclude records
      .ok
        { totalRecords := cleanRecords.length
          fields := fieldsToInclude
          records := cleanRecords }

end LLMInput

namespace LLMSvc

/-- Embeds the `Record` struct used by the LLM service (a bare
`map[string]interface{}` payload). -/
structure Record where
  data : List (String × JValue)
  deriving Repr, DecidableEq

/-- Embeds `ClassificationItem`.  `Score` is `float64` in Go but the only
score the repair path ever writes is the integer sentinel `-1`, so it is
modelled as an integer. -/
structure ClassificationItem where
  description : String
  category : String
  reason : String
  score : Int
  deriving Repr, DecidableEq

/-- Embeds `LLMResponse`. -/
structure LLMResponse where
  results : List ClassificationItem
  deriving Repr, DecidableEq

/-- The synthesized placeholder for a record the provider did not answer:
category `Indeterminado`, reason `No classification returned`,
score `-1`. -/
def defaultItem (originalValue : String) : ClassificationItem where
  description := originalValue
  category := "Indeterminado"
  reason := "No classification returned"
  score := -1

/-- The `resultMap` of `fixCountMismatch`: provider items keyed by their
normalized description (later items overwrite earlier ones, as Go map
assignment does). -/
def buildResultMap (normalizeString : String → String)
    (results : List ClassificationItem) :
    List (String × ClassificationItem) :=
  results.foldl
    (fun m item => AssocMap.insert m (normalizeString item.description) item) []

/-- The Go expression `record.Data[primaryField].(string)`: `some` when the
field is present and holds a string, otherwise a runtime panic, modelled
as `none`. -/
def primaryString (record : Record) (primaryField : String) :
    Option String :=
  match AssocMap.find record.data primaryField with
  | some (.jstr s) => some s
  | _ => none

/-- The per-record body of the repair loop: the provider item whose
normalized description matches the record's normalized primary value, or
the synthesized default entry on a miss. -/
def repairItem (normalizeString : String → String)
    (resultMap : List (String × ClassificationItem)) (original : String) :
    ClassificationItem :=
  match AssocMap.find resultMap (normalizeString original) with
  | some item => item
  | none => defaultItem original

/-- Embeds `fixCountMismatch`.  The function `normalizeString` it calls is
not part of the provided sources, so it is passed as a parameter.  For
each chunk record in order: take the provider item whose normalized
description matches the record's normalized primary value, else synthesize
the default entry.  `none` models the type-assertion panic on a record
whose primary field is missing or not a string. -/
def fixCountMismatch (normalizeString : String → String)
    (result : LLMResponse) (chunk : List Record) (primaryField : String) :
    Option LLMResponse :=
  let resultMap := buildResultMap normalizeString result.results
  (chunk.mapM (fun record =>
    (primaryString record primaryField).map
      (repairItem normalizeString resultMap))).map
    (fun fixed => { results := fixed })

/-- Modelled from the spec: `normalizeString` is absent from the provided
sources; per the spec, fuzziness is restricted to case/whitespace
normalization, so the model trims surrounding whitespace and folds ASCII
letter case. -/
def normalizeStringModel (s : String) : String :=
  let ws := fun c : Char => c = ' ' || c = '	' || c = '
' || c = '
'
  ⟨(((s.data.dropWhile ws).reverse.dropWhile ws).reverse).map
    (fun c => if 65 ≤ c.toNat && c.toNat ≤ 90 then Char.ofNat (c.toNat + 32)
      else c)⟩

end LLMSvc

namespace Refinery

/-- Go strings at rune granularity: every refinery node ranges over runes. -/
abbrev Text := List Char

/-- `unicode.IsSpace` on the Latin-1 range (space classes above U+00FF are
outside the model): space, tab, newline, vertical tab, form feed, carriage
return, NEL, NBSP. -/
def goIsSpace (c : Char) : Bool :=
  c = ' ' || c = '\t' || c = '\n' || c = '\x0b' || c = '\x0c' ||
  c = '\r' || c = '\u0085' || c = ' '

/-- The RE2 Perl class `\s`: exactly `[\t\n\f\r ]` (ASCII, no vertical
tab). -/
def reIsSpace (c : Char) : Bool :=
  c = ' ' || c = '\t' || c = '\n' || c = '\x0c' || c = '\r'

/-- The RE2 word character `\w` used by `\b`: `[0-9A-Za-z_]`. -/
def isWordChar (c : Char) : Bool :=
  c.isAlphanum || c = '_'

/-- `strings.ToUpper` on the ASCII and Latin-1 letters (including
`ñ → Ñ`); case pairs above U+00FF are outside the model and other
characters are unchanged. -/
def goToUpper (c : Char) : Char :=
  if 97 ≤ c.toNat && c.toNat ≤ 122 then Char.ofNat (c.toNat - 32)
  else if 224 ≤ c.toNat && c.toNat ≤ 254 && c.toNat ≠ 247 then
    Char.ofNat (c.toNat - 32)
  else if c.toNat = 255 then Char.ofNat 376
  else c

/-- `strings.ToLower` on the ASCII and Latin-1 letters (including
`Ñ → ñ`); case pairs above U+00FF are outside the model. -/
def goToLower (c : Char) : Char :=
  if 65 ≤ c.toNat && c.toNat ≤ 90 then Char.ofNat (c.toNat + 32)
  else if 192 ≤ c.toNat && c.toNat ≤ 222 && c.toNat ≠ 215 then
    Char.ofNat (c.toNat + 32)
  else c

/-- `unicode.IsLetter` restricted to the Latin-1 range: ASCII letters plus
the accented Latin-1 letters (excluding `×` and `÷`), plus the Latin-1
ordinals and micro sign; letters above U+00FF are outside the model. -/
def goIsLetter (c : Char) : Bool :=
  c.isAlpha || c.toNat = 170 || c.toNat = 181 || c.toNat = 186 ||
  (192 ≤ c.toNat && c.toNat ≤ 255 && c.toNat ≠ 215 && c.toNat ≠ 247)

/-- `unicode.IsDigit` restricted to ASCII (decimal digits above U+00FF are
outside the model). -/
def goIsDigit (c : Char) : Bool :=
  c.isDigit

/-- `strings.Fields` worker (fuel-structural; each step consumes at least
one character, so any fuel at least the text length is enough). -/
def fieldsGo : Nat → Text → List Text
  | 0, _ => []
  | _, [] => []
  | fuel + 1, c :: rest =>
      if goIsSpace c then fieldsGo fuel rest
      else (c :: rest.takeWhile (fun x => !goIsSpace x)) ::
        fieldsGo fuel (rest.dropWhile (fun x => !goIsSpace x))

/-- `strings.Fields`: maximal runs of non-space characters. -/
def fields (t : Text) : List Text :=
  fieldsGo t.length t

/-- `strings.Join(ws, " ")`. -/
def joinSpace (ws : List Text) : Text :=
  (ws.intersperse [' ']).flatten

/-- `strings.TrimSpace`. -/
def trimSpace (s : Text) : Text :=
  ((s.dropWhile goIsSpace).reverse.dropWhile goIsSpace).reverse

/-- Byte length of a Go string (`len(s)`): total UTF-8 size. -/
def goLen (w : Text) : Nat :=
  (w.map Char.utf8Size).sum

/-- Embeds `RefineryConfig`. -/
structure RefineryConfig where
  allowedChars : Text
  toKeep : List Text
  toRemove : List Text
  minLen : Int
  sepChars : Text
  vowels : Text
  separatorReplacement : Text
  fixMojibakeEncoding : Bool
  removeAdvancedPrefixedCodes : Bool
  normalizeSpanishAccents : Bool
  removePeriodCodes : Bool
  makeUppercase : Bool
  makeLowercase : Bool
  removeTrailingSolicitante : Bool
  replaceSeparatorsWithSpaces : Bool
  removeMultipleWhitespace : Bool
  removeSpecialChars : Bool
  removeWordsFromList : Bool
  removeAlphanumericWords : Bool
  removeAllNumbersWordsExcept : Bool
  removeWordsByMinLen : Bool
  removeAllConsonantsWords : Bool
  deriving Repr, DecidableEq

/-- The default V1 configuration built by `NewRefineryV1Spanish(nil)`. -/
def defaultConfig : RefineryConfig where
  allowedChars :=
    "ABCDEFGHIJKLMNOPQRSTUVWXYZabcdefghijklmnopqrstuvwxyzÑñ0123456789 ".toList
  toKeep :=
    ["SI", "NO", "GPS", "MPLS", "DSL", "MXN", "MXP", "USD", "RX", "TC",
     "TG", "TV", "POP", "MEDIOS", "36ROJBRINDIS"].map String.toList
  toRemove :=
    ["ENERO", "FEBRERO", "MARZO", "ABRIL", "MAYO", "JUNIO",
     "JULIO", "AGOSTO", "SEPTIEMBRE", "OCTUBRE", "NOVIEMBRE", "DICIEMBRE",
     "ENE", "FEB", "MAR", "ABR", "MAY", "JUN",
     "JUL", "AGO", "SEP", "OCT", "NOV", "DIC",
     "DE", "DEL"].map String.toList
  minLen := 3
  sepChars := ".,-/+&|".toList
  vowels := "AEIOUaeiouYy".toList
  separatorReplacement := " ".toList
  fixMojibakeEncoding := true
  removeAdvancedPrefixedCodes := true
  normalizeSpanishAccents := true
  removePeriodCodes := true
  makeUppercase := true
  makeLowercase := true
  removeTrailingSolicitante := true
  replaceSeparatorsWithSpaces := true
  removeMultipleWhitespace := true
  removeSpecialChars := true
  removeWordsFromList := true
  removeAlphanumericWords := true
  removeAllNumbersWordsExcept := true
  removeWordsByMinLen := true
  removeAllConsonantsWords := true

/-- `toKeepSet` lookup of `NewProcessingNodes`: keys are stored
upper-cased and looked up as `toKeepSet[strings.ToUpper(word)]`. -/
def inKeepSet (cfg : RefineryConfig) (w : Text) : Bool :=
  (cfg.toKeep.map (fun k => k.map goToUpper)).contains (w.map goToUpper)

/-- `toRemoveSet` lookup: keys stored upper-cased, looked up without
re-folding (the caller already upper-cased the text). -/
def inRemoveSet (cfg : RefineryConfig) (w : Text) : Bool :=
  (cfg.toRemove.map (fun k => k.map goToUpper)).contains w

/-- Embeds `FixMojibakeEncoding`: both branches return the text
unchanged. -/
def FixMojibakeEncoding (_cfg : RefineryConfig) (t : Text) : Text := t

/-- Head match of `(?i)^[A-Z]+\d+-\d+\s*`: ASCII letters, digits, dash,
digits, then `\s*`; returns the text after the match, or `none` if the
head does not match. -/
def matchPrefixCode (t : Text) : Option Text :=
  let l1 := t.takeWhile (fun c => c.isAlpha)
  if l1 = [] then none
  else
    let r1 := t.drop l1.length
    let d1 := r1.takeWhile goIsDigit
    if d1 = [] then none
    else
      match r1.drop d1.length with
      | c :: r3 =>
          if c = '-' then
            let d2 := r3.takeWhile goIsDigit
            if d2 = [] then none
            else some ((r3.drop d2.length).dropWhile reIsSpace)
          else none
      | [] => none

/-- Embeds `RemoveAdvancedPrefixedCodes`: strip the anchored code match,
then `TrimSpace`. -/
def RemoveAdvancedPrefixedCodes (cfg : RefineryConfig) (t : Text) : Text :=
  if !cfg.removeAdvancedPrefixedCodes then t
  else
    match matchPrefixCode t with
    | some rest => trimSpace rest
    | none => trimSpace t

/-- The accent-replacement table of `NormalizeSpanishAccents` (`ñ` is
deliberately absent). -/
def accentFold (c : Char) : Char :=
  if c = 'á' then 'a' else if c = 'é' then 'e' else if c = 'í' then 'i'
  else if c = 'ó' then 'o' else if c = 'ú' then 'u'
  else if c = 'Á' then 'A' else if c = 'É' then 'E' else if c = 'Í' then 'I'
  else if c = 'Ó' then 'O' else if c = 'Ú' then 'U'
  else if c = 'ü' then 'u' else if c = 'Ü' then 'U'
  else if c = 'à' then 'a' else if c = 'è' then 'e' else if c = 'ì' then 'i'
  else if c = 'ò' then 'o' else if c = 'ù' then 'u'
  else if c = 'À' then 'A' else if c = 'È' then 'E' else if c = 'Ì' then 'I'
  else if c = 'Ò' then 'O' else if c = 'Ù' then 'U'
  else c

/-- Embeds `NormalizeSpanishAccents`. -/
def NormalizeSpanishAccents (cfg : RefineryConfig) (t : Text) : Text :=
  if !cfg.normalizeSpanishAccents then t else t.map accentFold

/-- Embeds `MakeUppercase`. -/
def MakeUppercase (cfg : RefineryConfig) (t : Text) : Text :=
  if !cfg.makeUppercase then t else t.map goToUpper

/-- Embeds `MakeLowercase`. -/
def MakeLowercase (cfg : RefineryConfig) (t : Text) : Text :=
  if !cfg.makeLowercase then t else t.map goToLower

/-- `strings.ReplaceAll(t, string(sep), repl)` for a one-character
needle. -/
def replaceAllChar (sep : Char) (repl : Text) (t : Text) : Text :=
  (t.map (fun c => if c = sep then repl else [c])).flatten

/-- Embeds `ReplaceSeparators`: each separator character replaced in
sequence. -/
def ReplaceSeparators (cfg : RefineryConfig) (t : Text) : Text :=
  if !cfg.replaceSeparatorsWithSpaces then t
  else cfg.sepChars.foldl
    (fun acc sep => replaceAllChar sep cfg.separatorReplacement acc) t

/-- Worker for the `\s+` collapse (fuel-structural). -/
def collapseWsGo : Nat → Text → Text
  | 0, _ => []
  | _, [] => []
  | fuel + 1, c :: rest =>
      if reIsSpace c then ' ' :: collapseWsGo fuel (rest.dropWhile reIsSpace)
      else c :: collapseWsGo fuel rest

/-- Leftmost replacement of every `\s+` run by a single space. -/
def collapseWs (t : Text) : Text :=
  collapseWsGo t.length t

/-- Embeds `RemoveMultipleWhitespace`. -/
def RemoveMultipleWhitespace (cfg : RefineryConfig) (t : Text) : Text :=
  if !cfg.removeMultipleWhitespace then t else trimSpace (collapseWs t)

/-- Embeds `RemoveSpecialChars`: keep only characters of
`AllowedChars`. -/
def RemoveSpecialChars (cfg : RefineryConfig) (t : Text) : Text :=
  if !cfg.removeSpecialChars then t
  else t.filter (fun c => cfg.allowedChars.contains c)

/-- The per-word keep test of `RemoveWordsFromList`. -/
def stopKeep (cfg : RefineryConfig) (w : Text) : Bool :=
  !inRemoveSet cfg w

/-- Embeds `RemoveWordsFromList`: upper-case, split, drop stop words,
re-join. -/
def RemoveWordsFromList (cfg : RefineryConfig) (t : Text) : Text :=
  if !cfg.removeWordsFromList then t
  else joinSpace ((fields (t.map goToUpper)).filter (stopKeep cfg))

/-- Word-boundary test of RE2 `\b`: the word-ness of the previous
character differs from that of the next. -/
def pcBoundary : Text → Bool
  | [] => true
  | c :: _ => !isWordChar c

/-- Head match of `(?i)\bP\d+(-\d+)?\b` past the opening boundary:
`P`/`p`, digits, optionally dash-digits if a boundary follows, with the
RE2 backtracking fallback to the short form.  Returns the match
length. -/
def matchPC : Text → Option Nat
  | [] => none
  | c :: rest =>
      if c = 'P' || c = 'p' then
        let d1 := rest.takeWhile goIsDigit
        if d1 = [] then none
        else
          match rest.drop d1.length with
          | [] => if pcBoundary [] then some (1 + d1.length) else none
          | c2 :: r3 =>
              if c2 = '-' then
                let d2 := r3.takeWhile goIsDigit
                if d2 ≠ [] && pcBoundary (r3.drop d2.length) then
                  some (1 + d1.length + 1 + d2.length)
                else if pcBoundary (c2 :: r3) then some (1 + d1.length)
                else none
              else if pcBoundary (c2 :: r3) then some (1 + d1.length)
              else none
      else none

/-- Worker for the period-code scan (fuel-structural). -/
def scanPCGo : Nat → Bool → Text → Text
  | 0, _, _ => []
  | _, _, [] => []
  | fuel + 1, prev, c :: rest =>
      match (if prev then none else matchPC (c :: rest)) with
      | some n => scanPCGo fuel true (rest.drop (n - 1))
      | none => c :: scanPCGo fuel (isWordChar c) rest

/-- `ReplaceAllString` scan for the period-code pattern: at each position
not preceded by a word character, try the match; on success skip it (the
last matched character is a digit, so scanning resumes in word context). -/
def scanPC (prev : Bool) (t : Text) : Text :=
  scanPCGo t.length prev t

/-- Embeds `RemovePeriodCodes`. -/
def RemovePeriodCodes (cfg : RefineryConfig) (t : Text) : Text :=
  if !cfg.removePeriodCodes then t else trimSpace (scanPC false t)

/-- Character classes of the solicitante regular expressions. -/
inductive CC where
  | inSet (cs : List Char)
  | notInSet (cs : List Char)
  deriving Repr, DecidableEq

/-- Class membership test. -/
def CC.test : CC → Char → Bool
  | .inSet cs, c => cs.contains c
  | .notInSet cs, c => !cs.contains c

/-- Regular-expression elements appearing in the solicitante patterns:
single class, greedy star/plus, greedy `{1,2}` repetition, word boundary,
end anchor. -/
inductive RElem where
  | one (k : CC)
  | star (k : CC)
  | plus (k : CC)
  | repOneTwo (k : CC)
  | wb
  | eos
  deriving Repr, DecidableEq

/-- RE2 word boundary: the word-ness of the preceding character (false at
the start of the text) differs from that of the following one (false at
the end). -/
def wordBoundaryAt (prev : Bool) (s : Text) : Bool :=
  prev != (match s with | [] => false | c :: _ => isWordChar c)

/-- Backtracking matcher for a pattern (sequence of elements) against a
prefix of `s`, greedy-first as Go's leftmost-first semantics requires;
returns the number of characters consumed.  `prev` carries the word-ness
of the character before the current position for `\b`.  The fuel is
structural bookkeeping: every step shrinks `elems.length + s.length`, so
any fuel above that bound is never exhausted. -/
def matchSeq : Nat → List RElem → Bool → Text → Option Nat
  | 0, _, _, _ => none
  | _ + 1, [], _, _ => some 0
  | fuel + 1, .wb :: es, prev, s =>
      if wordBoundaryAt prev s then matchSeq fuel es prev s else none
  | fuel + 1, .eos :: es, prev, s =>
      if s = [] then matchSeq fuel es prev s else none
  | fuel + 1, .one k :: es, prev, s =>
      match s with
      | [] => none
      | c :: t =>
          if k.test c then (matchSeq fuel es (isWordChar c) t).map (· + 1)
          else none
  | fuel + 1, .plus k :: es, prev, s =>
      match s with
      | [] => none
      | c :: t =>
          if k.test c then
            (matchSeq fuel (.star k :: es) (isWordChar c) t).map (· + 1)
          else none
  | fuel + 1, .star k :: es, prev, s =>
      match s with
      | [] => matchSeq fuel es prev []
      | c :: t =>
          if k.test c then
            match matchSeq fuel (.star k :: es) (isWordChar c) t with
            | some n => some (n + 1)
            | none => matchSeq fuel es prev s
          else matchSeq fuel es prev s
  | fuel + 1, .repOneTwo k :: es, prev, s =>
      match s with
      | [] => none
      | c :: t =>
          if k.test c then
            match
              (match t with
               | c2 :: t2 =>
                   if k.test c2 then
                     (matchSeq fuel es (isWordChar c2) t2).map (· + 2)
                   else none
               | [] => none) with
            | some n => some n
            | none => (matchSeq fuel es (isWordChar c) t).map (· + 1)
          else none

/-- Fuel sufficient for `matchSeq` (see its docstring). -/
def matchFuel (es : List RElem) (s : Text) : Nat :=
  es.length + s.length + 1

/-- `ReplaceAllString(pattern, "")`: leftmost scan; at each position try a
match, skip matched characters (word-ness of the last matched character
feeds the next `\b` context).  The solicitante patterns cannot match the
empty string; a zero-length match is treated as no match, keeping the
scan well-founded. -/
def scanREGo (p : List RElem) : Nat → Bool → Text → Text
  | 0, _, _ => []
  | _, _, [] => []
  | fuel + 1, prev, c :: rest =>
      match matchSeq (matchFuel p (c :: rest)) p prev (c :: rest) with
      | some (n + 1) =>
          scanREGo p fuel (isWordChar ((c :: rest).getD n c)) (rest.drop n)
      | _ => c :: scanREGo p fuel (isWordChar c) rest

/-- The scan entry point. -/
def scanRE (p : List RElem) (prev : Bool) (t : Text) : Text :=
  scanREGo p t.length prev t

/-- One Go statement `text = strings.TrimSpace(re.ReplaceAllString(text,
""))`. -/
def replaceAllTrim (p : List RElem) (t : Text) : Text :=
  trimSpace (scanRE p false t)

/-- A case-insensitive literal character (the `(?i)` flag folds ASCII and
Latin-1 case pairs). -/
def ci (c : Char) : RElem :=
  .one (.inSet [goToUpper c, goToLower c])

/-- A case-insensitive literal word. -/
def lit (s : String) : List RElem :=
  s.toList.map ci

/-- The literal `\.` element. -/
def dotLit : RElem := .one (.inSet ['.'])

/-- The `\s` class. -/
def wsCC : CC := .inSet [' ', '\t', '\n', '\x0c', '\r']

/-- The `\d` class. -/
def digitCC : CC := .inSet ['0', '1', '2', '3', '4', '5', '6', '7', '8', '9']

/-- `.*`: any character but newline, greedy. -/
def anyStar : RElem := .star (.notInSet ['\n'])

/-- A case-insensitive character class. -/
def cicls (s : String) : CC :=
  .inSet ((s.toList.map (fun c => [goToUpper c, goToLower c])).flatten)

/-- The STEP-1 solicitante patterns, in source order. -/
def solPatterns : List (List RElem) :=
  [ dotLit :: lit "SOL" ++ dotLit :: lit "JESUS" ++ .plus wsCC ::
      lit "TREVI" ++ [.one (cicls "ÑÃN"), .star (cicls "OÃA"), anyStar],
    dotLit :: lit "SOL" ++ dotLit :: lit "JESUS" ++ .plus wsCC ::
      lit "TREVIO" ++ [anyStar],
    dotLit :: lit "SOL" ++ dotLit :: .star wsCC :: lit "JESUS" ++
      .plus wsCC :: lit "TREVI" ++
      [.one (cicls "ÑÃN"), .star (cicls "OÃA"), anyStar],
    dotLit :: .plus wsCC :: lit "SOL" ++ .plus wsCC :: lit "JESUS" ++
      .plus wsCC :: lit "TREVI" ++
      [.one (cicls "ÑÃN"), .star (cicls "OÃA"), anyStar],
    .wb :: lit "SOL" ++ .plus wsCC :: lit "JESUS" ++ .plus wsCC ::
      lit "TREVI" ++ [.one (cicls "ÑÃN"), .star (cicls "OÃA"), anyStar],
    dotLit :: lit "SOL" ++ dotLit :: lit "SPOTS" ++ dotLit ::
      lit "JESUS" ++ .plus wsCC :: lit "TREVI" ++
      [.one (cicls "ÑÃN"), .star (cicls "OÃA"), anyStar],
    dotLit :: lit "SOL" ++ dotLit :: lit "SUSANA" ++ .plus wsCC ::
      lit "SILVA" ++ [anyStar],
    dotLit :: lit "SOL" ++ dotLit :: lit "SUSAN" ++ .plus wsCC ::
      lit "SILVA" ++ [anyStar],
    dotLit :: lit "SOL" ++ dotLit :: lit "SUSANA" ++ [.wb, anyStar],
    dotLit :: .plus wsCC :: lit "SOL" ++ .plus wsCC :: lit "SUSANA" ++
      .plus wsCC :: lit "SILVA" ++ [anyStar],
    .wb :: lit "SOL" ++ .plus wsCC :: lit "SUSANA" ++ .plus wsCC ::
      lit "SILVA" ++ [anyStar],
    dotLit :: lit "SOL" ++ dotLit :: lit "DULCE" ++ .plus wsCC ::
      lit "GUILLEN" ++ [anyStar],
    dotLit :: .plus wsCC :: lit "SOL" ++ .plus wsCC :: lit "DULCE" ++
      .plus wsCC :: lit "GUILLEN" ++ [anyStar],
    .wb :: lit "SOL" ++ .plus wsCC :: lit "DULCE" ++ .plus wsCC ::
      lit "GUILLEN" ++ [anyStar],
    lit "SOLDULCE" ++ .plus wsCC :: lit "GUILLEN" ++ [anyStar],
    dotLit :: lit "SOL" ++ dotLit :: lit "LIGIA" ++ .plus wsCC ::
      lit "LOPEZ" ++ [anyStar],
    dotLit :: .plus wsCC :: lit "SOL" ++ .plus wsCC :: lit "LIGIA" ++
      .plus wsCC :: lit "LOPEZ" ++ [anyStar],
    .wb :: lit "SOL" ++ .plus wsCC :: lit "LIGIA" ++ .plus wsCC ::
      lit "LOPEZ" ++ [anyStar],
    lit "SOLLIGIA" ++ .plus wsCC :: lit "LOPEZ" ++ [anyStar],
    dotLit :: lit "SOL" ++ [dotLit, .star wsCC],
    dotLit :: ci 'P' :: .repOneTwo digitCC :: dotLit :: lit "SOL",
    dotLit :: .plus wsCC :: lit "SOL" ++ [.star wsCC] ]

/-- STEP-2 pattern `(?i)\.P\d{1,2}\.SUSANA\s+SILVA.*`. -/
def patPSusana : List RElem :=
  dotLit :: ci 'P' :: .repOneTwo digitCC :: dotLit :: lit "SUSANA" ++
    .plus wsCC :: lit "SILVA" ++ [anyStar]

/-- STEP-2 pattern `(?i)A\.\s*LIGIA\s+LOPEZ\s+B\..*`. -/
def patALigia : List RElem :=
  ci 'A' :: dotLit :: .star wsCC :: lit "LIGIA" ++ .plus wsCC ::
    lit "LOPEZ" ++ .plus wsCC :: ci 'B' :: [dotLit, anyStar]

/-- STEP-3 pattern `[\.\s]+$`. -/
def patTrailDots : List RElem :=
  [.plus (.inSet ['.', ' ', '\t', '\n', '\x0c', '\r']), .eos]

/-- `strings.Contains`. -/
def containsSub (sub : Text) : Text → Bool
  | [] => sub.isPrefixOf []
  | c :: rest => sub.isPrefixOf (c :: rest) || containsSub sub rest

/-- Embeds `RemoveTrailingSolicitante`: the STEP-1 cascade guarded by a
`SOL` substring check against the upper-cased entry text, the two STEP-2
edge cases, and the STEP-3 trailing-punctuation cleanup. -/
def RemoveTrailingSolicitante (cfg : RefineryConfig) (t : Text) : Text :=
  if !cfg.removeTrailingSolicitante then t
  else
    let upperText := t.map goToUpper
    let t1 :=
      if containsSub ("SOL".toList) upperText then
        solPatterns.foldl (fun acc p => replaceAllTrim p acc) t
      else t
    let t2 :=
      if containsSub (".P".toList) t1 &&
          containsSub ("SUSANA SILVA".toList) upperText then
        replaceAllTrim patPSusana t1
      else t1
    let t3 :=
      if containsSub ("A.".toList) t2 || containsSub ("B.".toList) t2 then
        replaceAllTrim patALigia t2
      else t2
    replaceAllTrim patTrailDots t3

/-- Embeds `isAlphanumeric`: at least one letter and one digit. -/
def isAlphanumeric (w : Text) : Bool :=
  w.any goIsLetter && w.any goIsDigit

/-- Embeds `isNumeric`: nonempty and all digits. -/
def isNumeric (w : Text) : Bool :=
  w.all goIsDigit && decide (w.length > 0)

/-- Embeds `hasVowel`: some character of the word is in the vowel set. -/
def hasVowel (w : Text) (vowels : Text) : Bool :=
  w.any (fun c => vowels.contains c)

/-- The per-word keep test of `RemoveAlphanumericWords`. -/
def alnumKeep (cfg : RefineryConfig) (w : Text) : Bool :=
  !isAlphanumeric w || inKeepSet cfg w

/-- The per-word keep test of `RemoveAllNumbersWordsExcept`. -/
def numericKeep (cfg : RefineryConfig) (w : Text) : Bool :=
  !isNumeric w || inKeepSet cfg w

/-- The per-word keep test of `RemoveWordsByMinLen`. -/
def minLenKeep (cfg : RefineryConfig) (w : Text) : Bool :=
  decide ((goLen w : Int) ≥ cfg.minLen) || inKeepSet cfg w

/-- The per-word keep test of `RemoveAllConsonantsWords`. -/
def vowelKeep (cfg : RefineryConfig) (w : Text) : Bool :=
  hasVowel w cfg.vowels || inKeepSet cfg w

/-- Embeds `RemoveAlphanumericWords`. -/
def RemoveAlphanumericWords (cfg : RefineryConfig) (t : Text) : Text :=
  if !cfg.removeAlphanumericWords then t
  else joinSpace ((fields t).filter (alnumKeep cfg))

/-- Embeds `RemoveAllNumbersWordsExcept`. -/
def RemoveAllNumbersWordsExcept (cfg : RefineryConfig) (t : Text) : Text :=
  if !cfg.removeAllNumbersWordsExcept then t
  else joinSpace ((fields t).filter (numericKeep cfg))

/-- Embeds `RemoveWordsByMinLen` (`len(word)` is the byte length). -/
def RemoveWordsByMinLen (cfg : RefineryConfig) (t : Text) : Text :=
  if !cfg.removeWordsByMinLen then t
  else joinSpace ((fields t).filter (minLenKeep cfg))

/-- Embeds `RemoveAllConsonantsWords`. -/
def RemoveAllConsonantsWords (cfg : RefineryConfig) (t : Text) : Text :=
  if !cfg.removeAllConsonantsWords then t
  else joinSpace ((fields t).filter (vowelKeep cfg))

/-- Well-formed token lists: every token is nonempty and free of
whitespace characters (`fields` of the space-join recovers exactly such a
list). -/
def wfTokens (ws : List Text) : Bool :=
  ws.all (fun w => !w.isEmpty && w.all (fun c => !goIsSpace c))

/-- Number of occurrences of the letter enye (either case). -/
def enyeCount (t : Text) : Nat :=
  (t.filter (fun c => c = 'ñ' || c = 'Ñ')).length

/-- Characters allowed inside a token of a fully processed string:
lowercase ASCII letters (code points 97-122), decimal digits (48-57), and
the lowercase enye. -/
def nfChar (c : Char) : Bool :=
  (97 ≤ c.toNat && c.toNat ≤ 122) || (48 ≤ c.toNat && c.toNat ≤ 57) ||
  c = 'ñ'

/-- Characters possible inside a token after the uppercasing stage of the
pipeline: uppercase ASCII letters (65-90), decimal digits (48-57), and the
uppercase enye. -/
def ufChar (c : Char) : Bool :=
  (65 ≤ c.toNat && c.toNat ≤ 90) || (48 ≤ c.toNat && c.toNat ≤ 57) ||
  c = 'Ñ'

/-- The V1 pipeline of `NewRefineryV1Spanish`, in source order. -/
def pipeline (cfg : RefineryConfig) : List (Text → Text) :=
  [FixMojibakeEncoding cfg, RemoveAdvancedPrefixedCodes cfg,
   NormalizeSpanishAccents cfg, MakeUppercase cfg,
   RemoveTrailingSolicitante cfg, ReplaceSeparators cfg,
   RemoveMultipleWhitespace cfg, RemoveSpecialChars cfg,
   RemoveWordsFromList cfg, RemovePeriodCodes cfg,
   RemoveAlphanumericWords cfg, RemoveAllNumbersWordsExcept cfg,
   RemoveWordsByMinLen cfg, RemoveAllConsonantsWords cfg,
   MakeLowercase cfg]

/-- Embeds `Process` of `RefineryV1Spanish`: fold the text through the
pipeline. -/
def Process (cfg : RefineryConfig) (t : Text) : Text :=
  (pipeline cfg).foldl (fun text step => step text) t

end Refinery

/-!
## Theorems

Helper lemmas first, then one theorem per claim (with a witness when the
claim theorem carries a hypothesis).
-/

/-- C2: recovery computes exactly the chunk indices `0 ≤ i < total_chunks`
that are not in the processed list, in strictly ascending order; in
particular `processed = [3,7]` with `total = 10` yields exactly
`[0,1,2,4,5,6,8,9]`. -/
theorem C2_remaining_chunks :
    (∀ cp : Checkpoint.BatchCheckpoint,
      (∀ i : Int, i ∈ Checkpoint.calculateRemainingChunks cp ↔
        0 ≤ i ∧ i < cp.totalChunks ∧ i ∉ cp.processedChunks) ∧
      (Checkpoint.calculateRemainingChunks cp).Pairwise (· < ·)) ∧
    Checkpoint.calculateRemainingChunks ⟨10, [3, 7]⟩ =
      [0, 1, 2, 4, 5, 6, 8, 9] := by
  constructor
  · intro cp
    constructor
    · intro i
      unfold Checkpoint.calculateRemainingChunks
      rw [List.mem_filter, List.mem_map]
      constructor
      · rintro ⟨⟨a, ha, rfl⟩, hp⟩
        rw [List.mem_range] at ha
        rw [decide_eq_true_iff] at hp
        refine ⟨by omega, by omega, ?_⟩
        intro hm
        exact hp (List.elem_iff.mpr hm)
      · rintro ⟨h0, hlt, hnm⟩
        refine ⟨⟨i.toNat, ?_, by omega⟩, ?_⟩
        · rw [List.mem_range]; omega
        · rw [decide_eq_true_iff]
          intro hc
          exact hnm (List.elem_iff.mp hc)
    · refine List.Pairwise.filter _
        (List.Pairwise.map (R := (· < ·)) _ ?_ (List.pairwise_lt_range _))
      intro a b hab
      exact_mod_cast hab
  · decide

/-- The `level1Loop` invariant: relative to an already-seen hash set, the
kept records have pairwise distinct hashes not in `seen`, form a sublist
of the input, account together with the duplicate counter for every
non-skipped record, cover every input hash, and each kept record is the
first input record bearing its hash. -/
theorem Dedup.level1Loop_spec (seen : List Dedup.GoStr)
    (records : List Dedup.Record) (h : ∀ r ∈ records, r.hash ≠ []) :
    ((Dedup.level1Loop seen records).1.map (fun r => r.hash)).Nodup ∧
    (∀ r' ∈ (Dedup.level1Loop seen records).1, r'.hash ∉ seen) ∧
    (Dedup.level1Loop seen records).1.Sublist records ∧
    (Dedup.level1Loop seen records).2 +
      (Dedup.level1Loop seen records).1.length = records.length ∧
    (∀ r ∈ records, r.hash ∈ seen ∨
      ∃ r' ∈ (Dedup.level1Loop seen records).1, r'.hash = r.hash) ∧
    (∀ r' ∈ (Dedup.level1Loop seen records).1,
      records.find? (fun r => r.hash == r'.hash) = some r') := by
  induction records generalizing seen with
  | nil => simp [Dedup.level1Loop]
  | cons r0 rest ih =>
    have h0 : r0.hash ≠ [] := h r0 (by simp)
    have hrest : ∀ r ∈ rest, r.hash ≠ [] := fun r hr => h r (by simp [hr])
    by_cases hseen : seen.contains r0.hash
    · have hseen' : r0.hash ∈ seen := by
        simpa [List.contains, List.elem_iff] using hseen
      obtain ⟨ihn, ihs, ihsub, ihlen, ihcov, ihfind⟩ := ih seen hrest
      rcases hud : Dedup.level1Loop seen rest with ⟨u, d⟩
      rw [hud] at ihn ihs ihsub ihlen ihcov ihfind
      dsimp only at ihn ihs ihsub ihlen ihcov ihfind
      have heq : Dedup.level1Loop seen (r0 :: rest) = (u, d + 1) := by
        simp [Dedup.level1Loop, h0, hseen, hseen', hud]
      rw [heq]
      refine ⟨ihn, ihs, ihsub.cons _, ?_, ?_, ?_⟩
      · dsimp only
        simp only [List.length_cons]
        omega
      · intro r hr
        rcases List.mem_cons.mp hr with rfl | hr
        · exact Or.inl hseen'
        · exact ihcov r hr
      · intro r' hr'
        have hne : r'.hash ≠ r0.hash := by
          intro he
          exact absurd hseen' (he ▸ ihs r' hr')
        rw [List.find?_cons_of_neg, ihfind r' hr']
        simpa using fun he => hne (by simpa using he.symm)
    · have hseen' : r0.hash ∉ seen := by
        simpa [List.contains, List.elem_iff] using hseen
      obtain ⟨ihn, ihs, ihsub, ihlen, ihcov, ihfind⟩ :=
        ih (r0.hash :: seen) hrest
      rcases hud : Dedup.level1Loop (r0.hash :: seen) rest with ⟨u, d⟩
      rw [hud] at ihn ihs ihsub ihlen ihcov ihfind
      dsimp only at ihn ihs ihsub ihlen ihcov ihfind
      have heq : Dedup.level1Loop seen (r0 :: rest) = (r0 :: u, d) := by
        simp [Dedup.level1Loop, h0, hseen, hseen', hud]
      rw [heq]
      refine ⟨?_, ?_, ihsub.cons₂ _, ?_, ?_, ?_⟩
      · simp only [List.map_cons, List.nodup_cons]
        refine ⟨?_, ihn⟩
        intro hmem
        rw [List.mem_map] at hmem
        obtain ⟨r', hr', hh⟩ := hmem
        exact ihs r' hr' (hh ▸ List.mem_cons_self _ _)
      · intro r' hr'
        rcases List.mem_cons.mp hr' with rfl | hr'
        · exact hseen'
        · exact fun hm => ihs r' hr' (List.mem_cons_of_mem _ hm)
      · dsimp only
        simp only [List.length_cons]
        omega
      · intro r hr
        rcases List.mem_cons.mp hr with rfl | hr
        · exact Or.inr ⟨r, List.mem_cons_self _ _, rfl⟩
        · rcases ihcov r hr with hc | hc
          · rcases List.mem_cons.mp hc with he | hs
            · exact Or.inr ⟨r0, List.mem_cons_self _ _, he.symm⟩
            · exact Or.inl hs
          · obtain ⟨r', hr', he⟩ := hc
            exact Or.inr ⟨r', List.mem_cons_of_mem _ hr', he⟩
      · intro r' hr'
        rcases List.mem_cons.mp hr' with rfl | hr'
        · rw [List.find?_cons_of_pos]
          simp
        · have hne : r'.hash ≠ r0.hash := by
            intro he
            exact ihs r' hr' (he ▸ List.mem_cons_self _ _)
          rw [List.find?_cons_of_neg, ihfind r' hr']
          simpa using fun he => hne (by simpa using he.symm)

/-- C5 (counterexample): a record whose hash is empty is dropped by
level-1 dedup without being counted as a duplicate, so the claim's
universal form fails: the single record of this list — trivially the
first-seen record of its hash — is not kept, and nothing is counted
as removed. -/
theorem C5_counterexample :
    ∃ res,
      Dedup.deduplicateLevel1 [{ rowIndex := 0, data := [], hash := [] }] =
        .ok res ∧ res.records = [] ∧ res.removedCount = 0 :=
  ⟨_, rfl, rfl, rfl⟩

/-- C5 (amended): for every record list whose records all carry a
nonempty hash, level-1 dedup keeps exactly the first-seen record of each
distinct hash — the survivors are a sublist of the input (input order,
row indices untouched), their hashes are pairwise distinct, every input
hash is represented, each survivor is the first input record with its
hash, and every non-surviving record is counted as a level-1 duplicate.
(Records with an empty hash — which the service never produces, since it
hashes every record first — are skipped without being counted.) -/
theorem C5_level1_first_seen (records : List Dedup.Record)
    (h : ∀ r ∈ records, r.hash ≠ []) :
    ∃ res, Dedup.deduplicateLevel1 records = .ok res ∧
      res.records.Sublist records ∧
      (res.records.map (fun r => r.hash)).Nodup ∧
      (∀ r ∈ records, ∃ r' ∈ res.records, r'.hash = r.hash) ∧
      (∀ r' ∈ res.records,
        records.find? (fun r => r.hash == r'.hash) = some r') ∧
      res.removedCount + res.records.length = records.length ∧
      res.deduplicatedCount = res.records.length ∧
      res.originalCount = records.length := by
  obtain ⟨hn, hs, hsub, hlen, hcov, hfind⟩ :=
    Dedup.level1Loop_spec [] records h
  rcases hud : Dedup.level1Loop [] records with ⟨u, d⟩
  rw [hud] at hn hs hsub hlen hcov hfind
  dsimp only at hn hs hsub hlen hcov hfind
  refine ⟨⟨records.length, u.length, d, u, 0, 0⟩, ?_, hsub, hn, ?_, hfind,
    by dsimp only; omega, rfl, rfl⟩
  · simp [Dedup.deduplicateLevel1, hud]
  · intro r hr
    rcases hcov r hr with hc | hc
    · simp at hc
    · exact hc

/-- C5 witness: a concrete run with hashes `[1]`, `[2]`, `[1]` keeps the
first two records and counts one duplicate. -/
theorem C5_level1_first_seen_witness :
    (∀ r ∈ ([{ rowIndex := 0, data := [], hash := [1] },
        { rowIndex := 1, data := [], hash := [2] },
        { rowIndex := 2, data := [], hash := [1] }] :
          List Dedup.Record), r.hash ≠ []) ∧
    ∃ res, Dedup.deduplicateLevel1
        [{ rowIndex := 0, data := [], hash := [1] },
         { rowIndex := 1, data := [], hash := [2] },
         { rowIndex := 2, data := [], hash := [1] }] = .ok res ∧
      res.records.Sublist
        [{ rowIndex := 0, data := [], hash := [1] },
         { rowIndex := 1, data := [], hash := [2] },
         { rowIndex := 2, data := [], hash := [1] }] ∧
      (res.records.map (fun r => r.hash)).Nodup ∧
      (∀ r ∈ ([{ rowIndex := 0, data := [], hash := [1] },
          { rowIndex := 1, data := [], hash := [2] },
          { rowIndex := 2, data := [], hash := [1] }] :
            List Dedup.Record),
        ∃ r' ∈ res.records, r'.hash = r.hash) ∧
      (∀ r' ∈ res.records,
        List.find? (fun r => r.hash == r'.hash)
          [{ rowIndex := 0, data := [], hash := [1] },
           { rowIndex := 1, data := [], hash := [2] },
           { rowIndex := 2, data := [], hash := [1] }] = some r') ∧
      res.removedCount + res.records.length = 3 ∧
      res.deduplicatedCount = res.records.length ∧
      res.originalCount = 3 :=
  ⟨by decide, C5_level1_first_seen _ (by decide)⟩

/-- `level2Loop` with an always-failing existence check keeps every
record and counts no duplicates. -/
theorem Dedup.level2Loop_err_keeps (e : List Nat)
    (records : List Dedup.Record) :
    Dedup.level2Loop (fun _ => .error e) records = (records, 0) := by
  induction records with
  | nil => rfl
  | cons r rest ih => simp [Dedup.level2Loop, ih]

/-- `level2Loop` fail-open: any record whose existence check errors is
kept. -/
theorem Dedup.level2Loop_fail_open
    (check : Dedup.GoStr → Except (List Nat) Bool)
    (records : List Dedup.Record) (r : Dedup.Record) (hr : r ∈ records)
    (e : List Nat) (he : check r.hash = .error e) :
    r ∈ (Dedup.level2Loop check records).1 := by
  induction records with
  | nil => cases hr
  | cons r0 rest ih =>
    rcases List.mem_cons.mp hr with rfl | hr
    · simp [Dedup.level2Loop, he]
    · rcases hc : check r0.hash with e0 | b
      · simpa [Dedup.level2Loop, hc] using Or.inr (ih hr)
      · cases b <;> simpa [Dedup.level2Loop, hc] using
          (by first
            | exact Or.inr (ih hr)
            | exact ih hr)

/-- C8: persistence failures are non-fatal. `Deduplicate` returns a
successful result for every repository (in particular one whose saves
fail); with a repository whose lookups all fail, the final records are
exactly the level-1 survivors (level-2 falls back); and any single
record whose lookup errors is kept by the level-2 pass (fail-open). -/
theorem C8_dedup_nonfatal :
    ∀ (config : Dedup.Config) (records : List Dedup.Record),
      (∀ repo : Option Dedup.HashRepository, ∃ res,
        Dedup.Deduplicate config repo records = .ok res) ∧
      (∃ res res1,
        Dedup.deduplicateLevel1 (records.map (fun r =>
          { r with hash :=
            Dedup.generateHash r config.cleanFields config })) = .ok res1 ∧
        Dedup.Deduplicate config (some Dedup.failingRepo) records =
          .ok res ∧
        res.records = res1.records) ∧
      (∀ (check : Dedup.GoStr → Except (List Nat) Bool)
          (records' : List Dedup.Record) (r : Dedup.Record),
        r ∈ records' → (∃ e, check r.hash = .error e) →
        r ∈ (Dedup.level2Loop check records').1) := by
  intro config records
  refine ⟨?_, ?_, ?_⟩
  · intro repo
    by_cases h : records = []
    · subst h; exact ⟨_, rfl⟩
    · simp only [Dedup.Deduplicate, if_neg h, Dedup.generateHashes,
        Dedup.deduplicateLevel1]
      exact ⟨_, rfl⟩
  · by_cases h : records = []
    · subst h
      exact ⟨_, _, rfl, rfl, rfl⟩
    · simp only [Dedup.Deduplicate, if_neg h, Dedup.generateHashes,
        Dedup.deduplicateLevel1, Dedup.deduplicateLevel2,
        Dedup.failingRepo, Dedup.level2Loop_err_keeps]
      by_cases h2 : config.enableLevel2 <;>
        simp only [h2] <;> exact ⟨_, _, rfl, rfl, rfl⟩
  · intro check records' r hr ⟨e, he⟩
    exact Dedup.level2Loop_fail_open check records' r hr e he

/-- The record-building loop of `GenerateInput` is the `filterMap` that
keeps exactly the records with a nonempty projected data map. -/
theorem LLMInput.buildCleanRecords_eq (config : LLMInput.GeneratorConfig)
    (fieldsToInclude : List String) (records : List LLMInput.Record) :
    LLMInput.buildCleanRecords config fieldsToInclude records =
      records.filterMap (fun r =>
        let cd := LLMInput.cleanDataOf config fieldsToInclude r
        if cd = [] then none
        else some { rowIndex := r.rowIndex, data := cd }) := by
  induction records with
  | nil => rfl
  | cons r rest ih =>
    by_cases hc : LLMInput.cleanDataOf config fieldsToInclude r = [] <;>
      simp [LLMInput.buildCleanRecords, List.filterMap_cons, hc, ih]

/-- Row indices of the generated records are those of the input records
that have at least one populated selected field, in input order. -/
theorem LLMInput.rowIndex_map_eq (config : LLMInput.GeneratorConfig)
    (fieldsToInclude : List String) (records : List LLMInput.Record) :
    (records.filterMap (fun r =>
        let cd := LLMInput.cleanDataOf config fieldsToInclude r
        if cd = [] then none
        else some ({ rowIndex := r.rowIndex, data := cd } :
          LLMInput.CleanRecord))).map (fun cr => cr.rowIndex) =
      (records.filter (fun r =>
        LLMInput.cleanDataOf config fieldsToInclude r ≠ [])).map
        (fun r => r.rowIndex) := by
  induction records with
  | nil => rfl
  | cons r rest ih =>
    by_cases hc : LLMInput.cleanDataOf config fieldsToInclude r = [] <;>
      simp [List.filterMap_cons, List.filter_cons, hc, ih]

/-- C9: with a nonempty record list and a configured field list,
`GenerateInput` succeeds, and its output records are exactly the input
records that have at least one populated selected field — records whose
selected fields are all absent are silently omitted — in input order
with row indices unchanged; the output may therefore be shorter than the
input. -/
theorem C9_generate_input_omits_empty (records : List LLMInput.Record)
    (config : LLMInput.GeneratorConfig)
    (hne : records ≠ []) (hf : config.fieldsToInclude ≠ []) :
    ∃ out, LLMInput.GenerateInput records config = .ok out ∧
      out.fields = config.fieldsToInclude ∧
      out.records = records.filterMap (fun r =>
        let cd := LLMInput.cleanDataOf config config.fieldsToInclude r
        if cd = [] then none
        else some { rowIndex := r.rowIndex, data := cd }) ∧
      out.records.map (fun cr => cr.rowIndex) =
        (records.filter (fun r =>
          LLMInput.cleanDataOf config config.fieldsToInclude r ≠ [])).map
          (fun r => r.rowIndex) ∧
      out.totalRecords = out.records.length := by
  have hout : LLMInput.GenerateInput records config = .ok
      { totalRecords :=
          (LLMInput.buildCleanRecords config config.fieldsToInclude
            records).length
        fields := config.fieldsToInclude
        records :=
          LLMInput.buildCleanRecords config config.fieldsToInclude
            records } := by
    simp only [LLMInput.GenerateInput, if_neg hne, if_neg hf]
  refine ⟨_, hout, rfl, ?_, ?_, rfl⟩
  · exact LLMInput.buildCleanRecords_eq config config.fieldsToInclude records
  · show (LLMInput.buildCleanRecords config config.fieldsToInclude
        records).map (fun cr => cr.rowIndex) = _
    rw [LLMInput.buildCleanRecords_eq]
    exact LLMInput.rowIndex_map_eq config config.fieldsToInclude records

/-- C9 witness: three records, the middle one with no populated selected
field; the generated input keeps rows 0 and 2 in order. -/
theorem C9_generate_input_omits_empty_witness :
    (([{ rowIndex := 0, originalData := [],
          cleanedData := [("cleanA", .jstr "x")] },
        { rowIndex := 1, originalData := [], cleanedData := [] },
        { rowIndex := 2, originalData := [],
          cleanedData := [("cleanA", .jstr "y")] }] :
          List LLMInput.Record) ≠ [] ∧
      ({ onlyCleanFields := true, fieldsToInclude := ["cleanA"] } :
        LLMInput.GeneratorConfig).fieldsToInclude ≠ []) ∧
    (∃ out, LLMInput.GenerateInput
        [{ rowIndex := 0, originalData := [],
            cleanedData := [("cleanA", .jstr "x")] },
         { rowIndex := 1, originalData := [], cleanedData := [] },
         { rowIndex := 2, originalData := [],
            cleanedData := [("cleanA", .jstr "y")] }]
        { onlyCleanFields := true, fieldsToInclude := ["cleanA"] } =
          .ok out ∧
      out.fields = ["cleanA"] ∧
      out.records = List.filterMap (fun r =>
        let cd := LLMInput.cleanDataOf
          { onlyCleanFields := true, fieldsToInclude := ["cleanA"] }
          ["cleanA"] r
        if cd = [] then none
        else some { rowIndex := r.rowIndex, data := cd })
        [{ rowIndex := 0, originalData := [],
            cleanedData := [("cleanA", .jstr "x")] },
         { rowIndex := 1, originalData := [], cleanedData := [] },
         { rowIndex := 2, originalData := [],
            cleanedData := [("cleanA", .jstr "y")] }] ∧
      out.records.map (fun cr => cr.rowIndex) =
        (List.filter (fun r =>
          LLMInput.cleanDataOf
            { onlyCleanFields := true, fieldsToInclude := ["cleanA"] }
            ["cleanA"] r ≠ [])
          [{ rowIndex := 0, originalData := [],
              cleanedData := [("cleanA", .jstr "x")] },
           { rowIndex := 1, originalData := [], cleanedData := [] },
           { rowIndex := 2, originalData := [],
              cleanedData := [("cleanA", .jstr "y")] }]).map
          (fun r => r.rowIndex) ∧
      out.totalRecords = out.records.length) :=
  ⟨⟨by decide, by decide⟩,
    C9_generate_input_omits_empty _ _ (by decide) (by decide)⟩

/-- The repair loop succeeds on any chunk whose records all carry a
primary string, producing per-record the matched-or-synthesized item. -/
theorem LLMSvc.mapM_primary_spec (normalizeString : String → String)
    (resultMap : List (String × LLMSvc.ClassificationItem))
    (primaryField : String) :
    ∀ chunk : List LLMSvc.Record,
      (∀ r ∈ chunk, (LLMSvc.primaryString r primaryField).isSome) →
      ∃ l, chunk.mapM (fun record =>
          (LLMSvc.primaryString record primaryField).map
            (LLMSvc.repairItem normalizeString resultMap)) = some l ∧
        List.Forall₂ (fun (r : LLMSvc.Record) item =>
          ∀ s, LLMSvc.primaryString r primaryField = some s →
            item = LLMSvc.repairItem normalizeString resultMap s)
          chunk l := by
  intro chunk
  induction chunk with
  | nil => exact fun _ => ⟨[], rfl, List.Forall₂.nil⟩
  | cons r rest ih =>
    intro h
    obtain ⟨s, hs⟩ := Option.isSome_iff_exists.mp (h r (by simp))
    obtain ⟨l, hl, hf⟩ := ih (fun r hr => h r (by simp [hr]))
    refine ⟨LLMSvc.repairItem normalizeString resultMap s :: l, ?_, ?_⟩
    · rw [List.mapM_cons, hs, hl]
      rfl
    · refine List.Forall₂.cons ?_ hf
      intro s' hs'
      rw [hs] at hs'
      cases hs'
      rfl

/-- C1: on a chunk whose records all carry a string primary value,
count-mismatch repair returns exactly `|chunk|` results; the i-th result
is the provider item whose normalized description matches the i-th
record's normalized primary value, or — on a miss — the synthesized
entry (`Indeterminado`, `No classification returned`, score `-1`); a
response with zero results yields one synthesized placeholder per
record. -/
theorem C1_count_mismatch_repair (normalizeString : String → String)
    (result : LLMSvc.LLMResponse) (chunk : List LLMSvc.Record)
    (primaryField : String)
    (h : ∀ r ∈ chunk, (LLMSvc.primaryString r primaryField).isSome) :
    ∃ fixed,
      LLMSvc.fixCountMismatch normalizeString result chunk primaryField =
        some fixed ∧
      fixed.results.length = chunk.length ∧
      List.Forall₂ (fun (r : LLMSvc.Record) item =>
        ∀ s, LLMSvc.primaryString r primaryField = some s →
          item = LLMSvc.repairItem normalizeString
            (LLMSvc.buildResultMap normalizeString result.results) s)
        chunk fixed.results ∧
      (result.results = [] →
        List.Forall₂ (fun (r : LLMSvc.Record) item =>
          ∀ s, LLMSvc.primaryString r primaryField = some s →
            item = LLMSvc.defaultItem s) chunk fixed.results) := by
  obtain ⟨l, hl, hf⟩ := LLMSvc.mapM_primary_spec normalizeString
    (LLMSvc.buildResultMap normalizeString result.results) primaryField
    chunk h
  refine ⟨{ results := l }, ?_, ?_, hf, ?_⟩
  · simp only [LLMSvc.fixCountMismatch]
    rw [hl]
    rfl
  · exact (List.Forall₂.length_eq hf).symm
  · intro hempty
    refine hf.imp ?_
    intro r item hitem s hs
    have := hitem s hs
    rw [hempty] at this
    simpa [LLMSvc.buildResultMap, LLMSvc.repairItem, AssocMap.find]
      using this

/-- C1 witness: the repository's own test scenario — three records, the
provider answers only the first two; the repair returns three results
with the third synthesized as `Indeterminado`, score `-1`. -/
theorem C1_count_mismatch_repair_witness :
    (∀ r ∈ ([⟨[("cleanLineDescription", .jstr "libro mental")]⟩,
        ⟨[("cleanLineDescription", .jstr "revista pop")]⟩,
        ⟨[("cleanLineDescription", .jstr "vinil display")]⟩] :
          List LLMSvc.Record),
      (LLMSvc.primaryString r "cleanLineDescription").isSome) ∧
    (∃ fixed,
      LLMSvc.fixCountMismatch LLMSvc.normalizeStringModel
        { results := [⟨"libro mental", "Pop", "", 0⟩,
            ⟨"revista pop", "Publicidad", "", 0⟩] }
        [⟨[("cleanLineDescription", .jstr "libro mental")]⟩,
         ⟨[("cleanLineDescription", .jstr "revista pop")]⟩,
         ⟨[("cleanLineDescription", .jstr "vinil display")]⟩]
        "cleanLineDescription" = some fixed ∧
      fixed.results.length = 3 ∧
      List.Forall₂ (fun (r : LLMSvc.Record) item =>
        ∀ s, LLMSvc.primaryString r "cleanLineDescription" = some s →
          item = LLMSvc.repairItem LLMSvc.normalizeStringModel
            (LLMSvc.buildResultMap LLMSvc.normalizeStringModel
              [⟨"libro mental", "Pop", "", 0⟩,
               ⟨"revista pop", "Publicidad", "", 0⟩]) s)
        [⟨[("cleanLineDescription", .jstr "libro mental")]⟩,
         ⟨[("cleanLineDescription", .jstr "revista pop")]⟩,
         ⟨[("cleanLineDescription", .jstr "vinil display")]⟩]
        fixed.results ∧
      (([⟨"libro mental", "Pop", "", 0⟩,
          ⟨"revista pop", "Publicidad", "", 0⟩] :
            List LLMSvc.ClassificationItem) = [] →
        List.Forall₂ (fun (r : LLMSvc.Record) item =>
          ∀ s, LLMSvc.primaryString r "cleanLineDescription" = some s →
            item = LLMSvc.defaultItem s)
          [⟨[("cleanLineDescription", .jstr "libro mental")]⟩,
           ⟨[("cleanLineDescription", .jstr "revista pop")]⟩,
           ⟨[("cleanLineDescription", .jstr "vinil display")]⟩]
          fixed.results)) ∧
    LLMSvc.fixCountMismatch LLMSvc.normalizeStringModel
        { results := [⟨"libro mental", "Pop", "", 0⟩,
            ⟨"revista pop", "Publicidad", "", 0⟩] }
        [⟨[("cleanLineDescription", .jstr "libro mental")]⟩,
         ⟨[("cleanLineDescription", .jstr "revista pop")]⟩,
         ⟨[("cleanLineDescription", .jstr "vinil display")]⟩]
        "cleanLineDescription" =
      some { results := [⟨"libro mental", "Pop", "", 0⟩,
        ⟨"revista pop", "Publicidad", "", 0⟩,
        ⟨"vinil display", "Indeterminado",
          "No classification returned", -1⟩] } :=
  ⟨by decide, C1_count_mismatch_repair _ _ _ _ (by decide), by decide⟩


/-- `lexLe` is total. -/
theorem Dedup.lexLe_total : ∀ a b : Dedup.GoStr,
    Dedup.lexLe a b = true ∨ Dedup.lexLe b a = true
  | [], _ => Or.inl rfl
  | _ :: _, [] => Or.inr rfl
  | a :: as, b :: bs => by
    rcases Nat.lt_trichotomy a b with h | h | h
    · exact Or.inl (by simp [Dedup.lexLe, h])
    · subst h
      rcases Dedup.lexLe_total as bs with hr | hr
      · exact Or.inl (by simp [Dedup.lexLe, hr])
      · exact Or.inr (by simp [Dedup.lexLe, hr])
    · exact Or.inr (by simp [Dedup.lexLe, h])

/-- `lexLe` is transitive. -/
theorem Dedup.lexLe_trans : ∀ {a b c : Dedup.GoStr},
    Dedup.lexLe a b = true → Dedup.lexLe b c = true →
    Dedup.lexLe a c = true
  | [], _, _, _, _ => rfl
  | a :: as, b :: bs, c :: cs, hab, hbc => by
    simp only [Dedup.lexLe, Bool.or_eq_true, decide_eq_true_eq,
      Bool.and_eq_true] at hab hbc ⊢
    rcases hab with h1 | ⟨rfl, h1⟩
    · rcases hbc with h2 | ⟨rfl, h2⟩
      · exact Or.inl (Nat.lt_trans h1 h2)
      · exact Or.inl h1
    · rcases hbc with h2 | ⟨rfl, h2⟩
      · exact Or.inl h2
      · exact Or.inr ⟨rfl, Dedup.lexLe_trans h1 h2⟩
  | _ :: _, [], _, hab, _ => by simp [Dedup.lexLe] at hab
  | _ :: _, _ :: _, [], _, hbc => by simp [Dedup.lexLe] at hbc

/-- Members of `insertSorted` come from the inserted pair or the list. -/
theorem Dedup.mem_insertSorted (p x : Dedup.GoStr × Dedup.Value) :
    ∀ l, x ∈ Dedup.insertSorted p l → x = p ∨ x ∈ l
  | [], h => by simpa [Dedup.insertSorted] using h
  | q :: t, h => by
    rw [Dedup.insertSorted] at h
    split at h
    · rcases List.mem_cons.mp h with rfl | h
      · exact Or.inl rfl
      · exact Or.inr h
    · rcases List.mem_cons.mp h with rfl | h
      · exact Or.inr (List.mem_cons_self _ _)
      · rcases Dedup.mem_insertSorted p x t h with h | h
        · exact Or.inl h
        · exact Or.inr (List.mem_cons_of_mem _ h)

/-- `insertSorted` preserves key-sortedness. -/
theorem Dedup.insertSorted_pairwise (p : Dedup.GoStr × Dedup.Value) :
    ∀ l, List.Pairwise (fun a b => Dedup.lexLe a.1 b.1 = true) l →
      List.Pairwise (fun a b => Dedup.lexLe a.1 b.1 = true)
        (Dedup.insertSorted p l)
  | [], _ => by simp [Dedup.insertSorted]
  | q :: t, hl => by
    rw [Dedup.insertSorted]
    rcases List.pairwise_cons.mp hl with ⟨hq, ht⟩
    split
    · rename_i hle
      refine List.pairwise_cons.mpr ⟨?_, hl⟩
      intro x hx
      rcases List.mem_cons.mp hx with rfl | hx
      · exact hle
      · exact Dedup.lexLe_trans hle (hq x hx)
    · rename_i hnle
      have hqp : Dedup.lexLe q.1 p.1 = true := by
        rcases Dedup.lexLe_total p.1 q.1 with h | h
        · exact absurd h hnle
        · exact h
      refine List.pairwise_cons.mpr ⟨?_, Dedup.insertSorted_pairwise p t ht⟩
      intro x hx
      rcases Dedup.mem_insertSorted p x t hx with rfl | hx
      · exact hqp
      · exact hq x hx

/-- `sortByKey` produces a key-sorted association list. -/
theorem Dedup.sortByKey_pairwise (m : List (Dedup.GoStr × Dedup.Value)) :
    List.Pairwise (fun a b => Dedup.lexLe a.1 b.1 = true)
      (Dedup.sortByKey m) := by
  induction m with
  | nil => exact List.Pairwise.nil
  | cons p t ih => exact Dedup.insertSorted_pairwise p _ ih

/-- C3: records with equal normalized field-to-value mappings receive
equal hashes; the hash is the hex-encoded SHA-256 of the JSON encoding of
that mapping, whose keys the encoder sorts lexicographically; and the
computation is a pure function of the mapping, hence deterministic across
invocations. -/
theorem C3_hash_canonical (fields : List Dedup.GoStr) (config : Dedup.Config)
    (r1 r2 : Dedup.Record)
    (h : Dedup.hashDataOf r1 fields config =
      Dedup.hashDataOf r2 fields config) :
    Dedup.generateHash r1 fields config =
        Dedup.generateHash r2 fields config ∧
      Dedup.generateHash r1 fields config =
        Dedup.hexEncode (Dedup.sha256 (Dedup.marshalMap
          (Dedup.hashDataOf r1 fields config))) ∧
      List.Pairwise (fun a b => Dedup.lexLe a.1 b.1 = true)
        (Dedup.sortByKey (Dedup.hashDataOf r1 fields config)) :=
  ⟨by rw [Dedup.generateHash, Dedup.generateHash, h], rfl,
    Dedup.sortByKey_pairwise _⟩


/-- C3 witness: `" TV"` and `"tv "` normalize to the same mapping under
the default options and therefore hash identically. -/
theorem C3_hash_canonical_witness :
    Dedup.hashDataOf ⟨0, [([102], .vstr [32, 84, 86])], []⟩ [[102]]
        Dedup.DefaultConfig =
      Dedup.hashDataOf ⟨1, [([102], .vstr [116, 118, 32])], []⟩ [[102]]
        Dedup.DefaultConfig ∧
    (Dedup.generateHash ⟨0, [([102], .vstr [32, 84, 86])], []⟩ [[102]]
          Dedup.DefaultConfig =
        Dedup.generateHash ⟨1, [([102], .vstr [116, 118, 32])], []⟩ [[102]]
          Dedup.DefaultConfig ∧
      Dedup.generateHash ⟨0, [([102], .vstr [32, 84, 86])], []⟩ [[102]]
          Dedup.DefaultConfig =
        Dedup.hexEncode (Dedup.sha256 (Dedup.marshalMap
          (Dedup.hashDataOf ⟨0, [([102], .vstr [32, 84, 86])], []⟩ [[102]]
            Dedup.DefaultConfig))) ∧
      List.Pairwise (fun a b => Dedup.lexLe a.1 b.1 = true)
        (Dedup.sortByKey
          (Dedup.hashDataOf ⟨0, [([102], .vstr [32, 84, 86])], []⟩ [[102]]
            Dedup.DefaultConfig))) :=
  ⟨by decide, C3_hash_canonical _ _ _ _ (by decide)⟩


/-- Byte strings differing only by ASCII case lowercase to the same
string. -/
theorem Dedup.acv_toLowerCase : ∀ {v1 v2 : Dedup.GoStr},
    Dedup.asciiCaseVariant v1 v2 = true →
    Dedup.toLowerCase v1 = Dedup.toLowerCase v2
  | [], [], _ => rfl
  | a :: as, b :: bs, h => by
    simp only [Dedup.asciiCaseVariant, Bool.and_eq_true, Bool.or_eq_true,
      decide_eq_true_eq] at h
    obtain ⟨hab, hrest⟩ := h
    simp only [Dedup.toLowerCase, List.map_cons, List.cons.injEq]
    refine ⟨?_, Dedup.acv_toLowerCase hrest⟩
    split_ifs <;> simp_all <;> omega

/-- The ASCII-case relation is preserved by dropping leading
whitespace (related bytes are whitespace simultaneously). -/
theorem Dedup.acv_dropWhile_ws : ∀ {v1 v2 : Dedup.GoStr},
    Dedup.asciiCaseVariant v1 v2 = true →
    Dedup.asciiCaseVariant (v1.dropWhile Dedup.isWhitespace)
      (v2.dropWhile Dedup.isWhitespace) = true
  | [], [], _ => rfl
  | a :: as, b :: bs, h => by
    simp only [Dedup.asciiCaseVariant, Bool.and_eq_true, Bool.or_eq_true,
      decide_eq_true_eq] at h
    obtain ⟨hab, hrest⟩ := h
    have hw : Dedup.isWhitespace a = Dedup.isWhitespace b := by
      simp only [Dedup.isWhitespace]
      have : a = b ∨ (a ≠ 32 ∧ a ≠ 9 ∧ a ≠ 10 ∧ a ≠ 13 ∧ b ≠ 32 ∧
          b ≠ 9 ∧ b ≠ 10 ∧ b ≠ 13) := by omega
      rcases this with rfl | hne
      · rfl
      · simp only [Bool.or_eq_true, decide_eq_true_eq, Bool.or_eq_false_iff,
          decide_eq_false_iff_not] at *
        simp [hne.1, hne.2.1, hne.2.2.1, hne.2.2.2.1, hne.2.2.2.2.1,
          hne.2.2.2.2.2.1, hne.2.2.2.2.2.2]
    by_cases hwa : Dedup.isWhitespace a
    · rw [List.dropWhile_cons_of_pos hwa,
        List.dropWhile_cons_of_pos (hw ▸ hwa)]
      exact Dedup.acv_dropWhile_ws hrest
    · rw [List.dropWhile_cons_of_neg hwa,
        List.dropWhile_cons_of_neg (hw ▸ hwa)]
      simp only [Dedup.asciiCaseVariant, Bool.and_eq_true, Bool.or_eq_true,
        decide_eq_true_eq]
      exact ⟨hab, hrest⟩

/-- The ASCII-case relation is compatible with append. -/
theorem Dedup.acv_append : ∀ {v1 v2 : Dedup.GoStr},
    Dedup.asciiCaseVariant v1 v2 = true → ∀ {w1 w2 : Dedup.GoStr},
    Dedup.asciiCaseVariant w1 w2 = true →
    Dedup.asciiCaseVariant (v1 ++ w1) (v2 ++ w2) = true
  | [], [], _, _, _, hw => hw
  | a :: as, b :: bs, h, w1, w2, hw => by
    simp only [Dedup.asciiCaseVariant, Bool.and_eq_true] at h
    simp only [List.cons_append, Dedup.asciiCaseVariant, Bool.and_eq_true]
    exact ⟨h.1, Dedup.acv_append h.2 hw⟩

/-- The ASCII-case relation is preserved by reversal. -/
theorem Dedup.acv_reverse : ∀ {v1 v2 : Dedup.GoStr},
    Dedup.asciiCaseVariant v1 v2 = true →
    Dedup.asciiCaseVariant v1.reverse v2.reverse = true
  | [], [], _ => rfl
  | a :: as, b :: bs, h => by
    simp only [Dedup.asciiCaseVariant, Bool.and_eq_true] at h
    simp only [List.reverse_cons]
    refine Dedup.acv_append (Dedup.acv_reverse h.2) ?_
    simp only [Dedup.asciiCaseVariant, Bool.and_eq_true]
    exact ⟨h.1, trivial⟩

/-- The ASCII-case relation is preserved by `trimWhitespace`. -/
theorem Dedup.acv_trim {v1 v2 : Dedup.GoStr}
    (h : Dedup.asciiCaseVariant v1 v2 = true) :
    Dedup.asciiCaseVariant (Dedup.trimWhitespace v1)
      (Dedup.trimWhitespace v2) = true :=
  Dedup.acv_reverse (Dedup.acv_dropWhile_ws (Dedup.acv_reverse
    (Dedup.acv_dropWhile_ws h)))

/-- With case-insensitive options, ASCII-case-related strings normalize
identically. -/
theorem Dedup.acv_normalizeValue (config : Dedup.Config)
    (hcs : config.caseSensitive = false) {v1 v2 : Dedup.GoStr}
    (h : Dedup.asciiCaseVariant v1 v2 = true) :
    Dedup.normalizeValue (.vstr v1) config =
      Dedup.normalizeValue (.vstr v2) config := by
  simp only [Dedup.normalizeValue, hcs, Bool.false_eq_true, if_false]
  by_cases ht : config.trimWs <;>
    simp only [ht, if_true, if_false, Dedup.Value.vstr.injEq]
  · exact Dedup.acv_toLowerCase (Dedup.acv_trim h)
  · exact Dedup.acv_toLowerCase h


/-- The value-level version: related scalar values normalize
identically when case folding is on. -/
theorem Dedup.acv_normalizeValue_any (config : Dedup.Config)
    (hcs : config.caseSensitive = false) {x y : Dedup.Value}
    (h : match x, y with
      | .vstr v1, .vstr v2 => Dedup.asciiCaseVariant v1 v2 = true
      | x, y => x = y) :
    Dedup.normalizeValue x config = Dedup.normalizeValue y config := by
  cases x <;> cases y <;>
    first
      | exact Dedup.acv_normalizeValue config hcs h
      | (cases h; rfl)
      | simp at h

/-- Lookups in key-aligned, value-related data maps produce values that
normalize identically. -/
theorem Dedup.acv_mapLookup (config : Dedup.Config)
    (hcs : config.caseSensitive = false) :
    ∀ {d1 d2 : List (Dedup.GoStr × Dedup.Value)},
    List.Forall₂ (fun kv1 kv2 => kv1.1 = kv2.1 ∧
      (match kv1.2, kv2.2 with
       | .vstr v1, .vstr v2 => Dedup.asciiCaseVariant v1 v2 = true
       | x, y => x = y)) d1 d2 → ∀ f,
    (Dedup.mapLookup d1 f).map (fun v => Dedup.normalizeValue v config) =
      (Dedup.mapLookup d2 f).map (fun v => Dedup.normalizeValue v config) := by
  intro d1 d2 hf
  induction hf with
  | nil => intro f; rfl
  | @cons kv1 kv2 d1t d2t hkv hrest ih =>
    intro f
    obtain ⟨hk, hv⟩ := hkv
    by_cases hkey : kv1.1 = f
    · simp only [Dedup.mapLookup]
      rw [List.find?_cons_of_pos, List.find?_cons_of_pos]
      · simpa using Dedup.acv_normalizeValue_any config hcs hv
      · simpa using hk ▸ hkey
      · simpa using hkey
    · simp only [Dedup.mapLookup]
      rw [List.find?_cons_of_neg, List.find?_cons_of_neg]
      · simpa [Dedup.mapLookup] using ih f
      · simpa using hk ▸ hkey
      · simpa using hkey

/-- Records with key-aligned, ASCII-case-related data build identical
normalized hash mappings under case-insensitive options. -/
theorem Dedup.acv_hashDataOf (config : Dedup.Config)
    (hcs : config.caseSensitive = false) (fields : List Dedup.GoStr)
    (r1 r2 : Dedup.Record)
    (hdata : List.Forall₂ (fun kv1 kv2 => kv1.1 = kv2.1 ∧
      (match kv1.2, kv2.2 with
       | .vstr v1, .vstr v2 => Dedup.asciiCaseVariant v1 v2 = true
       | x, y => x = y)) r1.data r2.data) :
    Dedup.hashDataOf r1 fields config = Dedup.hashDataOf r2 fields config := by
  have hlk := Dedup.acv_mapLookup config hcs hdata
  show List.foldl _ _ fields = List.foldl _ _ fields
  have : ∀ (m : List (Dedup.GoStr × Dedup.Value)),
      List.foldl (fun m f =>
        match Dedup.mapLookup r1.data f with
        | some v => Dedup.mapInsert m f (Dedup.normalizeValue v config)
        | none => m) m fields =
      List.foldl (fun m f =>
        match Dedup.mapLookup r2.data f with
        | some v => Dedup.mapInsert m f (Dedup.normalizeValue v config)
        | none => m) m fields := by
    induction fields with
    | nil => intro m; rfl
    | cons f ft ih =>
      intro m
      simp only [List.foldl_cons]
      have hstep := hlk f
      rcases h1 : Dedup.mapLookup r1.data f with _ | v1 <;>
        rcases h2 : Dedup.mapLookup r2.data f with _ | v2
      · simp only [h1, h2]
        exact ih m
      · rw [h1, h2] at hstep
        simp at hstep
      · rw [h1, h2] at hstep
        simp at hstep
      · rw [h1, h2] at hstep
        simp only [Option.map] at hstep
        have hv := Option.some.inj hstep
        simp only [h1, h2, hv]
        exact ih _
  exact this []

/-- C4 (amended): with the case-sensitive option disabled, two records
whose data maps agree on keys and whose string values differ only by
ASCII letter case receive equal hashes.  (Non-ASCII case pairs such as
`Ñ`/`ñ` are not folded — see the counterexample.) -/
theorem C4_ascii_case_equal_hashes (config : Dedup.Config) (hcs : config.caseSensitive = false)
    (fields : List Dedup.GoStr) (r1 r2 : Dedup.Record)
    (hdata : List.Forall₂ (fun kv1 kv2 => kv1.1 = kv2.1 ∧
      (match kv1.2, kv2.2 with
       | .vstr v1, .vstr v2 => Dedup.asciiCaseVariant v1 v2 = true
       | x, y => x = y)) r1.data r2.data) :
    Dedup.generateHash r1 fields config =
      Dedup.generateHash r2 fields config := by
  rw [Dedup.generateHash, Dedup.generateHash,
    Dedup.acv_hashDataOf config hcs fields r1 r2 hdata]

/-- C4 witness: `"TV"` and `"tv"` hash identically under the default
(case-insensitive) options. -/
theorem C4_ascii_case_equal_hashes_witness :
    (Dedup.DefaultConfig.caseSensitive = false ∧
      List.Forall₂ (fun (kv1 kv2 : Dedup.GoStr × Dedup.Value) =>
        kv1.1 = kv2.1 ∧
        (match kv1.2, kv2.2 with
         | .vstr v1, .vstr v2 => Dedup.asciiCaseVariant v1 v2 = true
         | x, y => x = y))
        [([102], .vstr [84, 86])] [([102], .vstr [116, 118])]) ∧
    Dedup.generateHash ⟨0, [([102], .vstr [84, 86])], []⟩ [[102]]
        Dedup.DefaultConfig =
      Dedup.generateHash ⟨1, [([102], .vstr [116, 118])], []⟩ [[102]]
        Dedup.DefaultConfig :=
  ⟨⟨rfl, List.Forall₂.cons ⟨rfl, by decide⟩ List.Forall₂.nil⟩,
    C4_ascii_case_equal_hashes Dedup.DefaultConfig rfl [[102]] _ _
      (List.Forall₂.cons ⟨rfl, by decide⟩ List.Forall₂.nil)⟩


/-- C4 (counterexample): with the default case-insensitive options, the
one-character strings `Ñ` (bytes `C3 91`) and `ñ` (bytes `C3 B1`) — the
same letter in the two cases — receive different hashes, because the
byte-wise `toLowerCase` folds only ASCII letters. -/
theorem C4_counterexample :
    Dedup.DefaultConfig.caseSensitive = false ∧
    Dedup.generateHash ⟨0, [([102], .vstr [195, 145])], []⟩ [[102]]
        Dedup.DefaultConfig ≠
      Dedup.generateHash ⟨1, [([102], .vstr [195, 177])], []⟩ [[102]]
        Dedup.DefaultConfig :=
  ⟨rfl, by decide⟩


/-- Any fuel at least the text length computes `fields`. -/
theorem Refinery.fieldsGo_eq_fields :
    ∀ fuel t, t.length ≤ fuel → fieldsGo fuel t = fields t := by
  intro fuel
  induction fuel using Nat.strong_induction_on with
  | _ fuel ih =>
    intro t hle
    match fuel, t with
    | 0, [] => rfl
    | 0, c :: rest => simp at hle
    | f + 1, [] => rfl
    | f + 1, c :: rest =>
      simp only [List.length_cons] at hle
      show fieldsGo (f + 1) (c :: rest) = fieldsGo (rest.length + 1) (c :: rest)
      simp only [fieldsGo]
      split
      · rw [ih f (by omega) rest (by omega)]
        show fields rest = fieldsGo rest.length rest
        rfl
      · rw [ih f (by omega) _ (le_trans
          (List.dropWhile_sublist _).length_le (by omega))]
        rw [ih rest.length (by omega) _
          (List.dropWhile_sublist _).length_le]

/-- One-step unfolding of `fields`. -/
theorem Refinery.fields_cons (c : Char) (rest : Text) :
    fields (c :: rest) =
      if goIsSpace c then fields rest
      else (c :: rest.takeWhile (fun x => !goIsSpace x)) ::
        fields (rest.dropWhile (fun x => !goIsSpace x)) := by
  show fieldsGo (rest.length + 1) (c :: rest) = _
  simp only [fieldsGo]
  split
  · exact fieldsGo_eq_fields rest.length rest (by omega)
  · rw [fieldsGo_eq_fields rest.length _ (List.dropWhile_sublist _).length_le]

/-- Any fuel at least the text length computes `collapseWs`. -/
theorem Refinery.collapseWsGo_eq :
    ∀ fuel t, t.length ≤ fuel → collapseWsGo fuel t = collapseWs t := by
  intro fuel
  induction fuel using Nat.strong_induction_on with
  | _ fuel ih =>
    intro t hle
    match fuel, t with
    | 0, [] => rfl
    | 0, c :: rest => simp at hle
    | f + 1, [] => rfl
    | f + 1, c :: rest =>
      simp only [List.length_cons] at hle
      show collapseWsGo (f + 1) (c :: rest) =
        collapseWsGo (rest.length + 1) (c :: rest)
      simp only [collapseWsGo]
      split
      · rw [ih f (by omega) _ (le_trans
          (List.dropWhile_sublist _).length_le (by omega))]
        rw [ih rest.length (by omega) _
          (List.dropWhile_sublist _).length_le]
      · rw [ih f (by omega) rest (by omega)]
        rfl

/-- One-step unfolding of `collapseWs`. -/
theorem Refinery.collapseWs_cons (c : Char) (rest : Text) :
    collapseWs (c :: rest) =
      if reIsSpace c then ' ' :: collapseWs (rest.dropWhile reIsSpace)
      else c :: collapseWs rest := by
  show collapseWsGo (rest.length + 1) (c :: rest) = _
  simp only [collapseWsGo]
  split
  · rw [collapseWsGo_eq rest.length _ (List.dropWhile_sublist _).length_le]
  · rw [collapseWsGo_eq rest.length rest (by omega)]

/-- Any fuel at least the text length computes `scanPC`. -/
theorem Refinery.scanPCGo_eq :
    ∀ fuel prev t, t.length ≤ fuel → scanPCGo fuel prev t = scanPC prev t := by
  intro fuel
  induction fuel using Nat.strong_induction_on with
  | _ fuel ih =>
    intro prev t hle
    match fuel, t with
    | 0, [] => rfl
    | 0, c :: rest => simp at hle
    | f + 1, [] => rfl
    | f + 1, c :: rest =>
      simp only [List.length_cons] at hle
      show scanPCGo (f + 1) prev (c :: rest) =
        scanPCGo (rest.length + 1) prev (c :: rest)
      simp only [scanPCGo]
      split
      · rename_i n hn
        rw [ih f (by omega) true _ (le_trans
          (List.drop_sublist (n - 1) rest).length_le (by omega))]
        rw [ih rest.length (by omega) true _
          (List.drop_sublist (n - 1) rest).length_le]
      · rw [ih f (by omega) _ rest (by omega)]
        rfl

/-- One-step unfolding of `scanPC`. -/
theorem Refinery.scanPC_cons (prev : Bool) (c : Char) (rest : Text) :
    scanPC prev (c :: rest) =
      match (if prev then none else matchPC (c :: rest)) with
      | some n => scanPC true (rest.drop (n - 1))
      | none => c :: scanPC (isWordChar c) rest := by
  show scanPCGo (rest.length + 1) prev (c :: rest) = _
  simp only [scanPCGo]
  split
  · rename_i n hn
    rw [scanPCGo_eq rest.length true _
      (List.drop_sublist (n - 1) rest).length_le]
    try rw [hn]
  · rename_i hn
    rw [scanPCGo_eq rest.length _ rest (by omega)]
    try rw [hn]


/-!
### Refinery helper lemmas

Evaluation and decomposition lemmas for the period-code matcher, the
token-splitting functions, and the enye-counting infrastructure used by
the C6, C7 and C10 claims.
-/

namespace Refinery

theorem matchPC_not_p {c : Char} (rest : Text)
    (hP : (c = 'P' || c = 'p') = false) : matchPC (c :: rest) = none := by
  rw [matchPC]
  simp only [hP]
  rfl

theorem matchPC_no_digit {c : Char} {rest : Text}
    (hd1 : rest.takeWhile goIsDigit = []) : matchPC (c :: rest) = none := by
  rw [matchPC]
  split
  · rw [if_pos hd1]
  · rfl

theorem matchPC_end {c : Char} {rest : Text}
    (hd1 : rest.takeWhile goIsDigit ≠ [])
    (hdrop : rest.drop (rest.takeWhile goIsDigit).length = []) :
    matchPC (c :: rest) =
      if c = 'P' || c = 'p' then
        some (1 + (rest.takeWhile goIsDigit).length)
      else none := by
  rw [matchPC]
  by_cases hP : (c = 'P' || c = 'p') = true
  · rw [if_pos hP, if_pos hP, if_neg hd1, hdrop]
    rfl
  · rw [if_neg hP, if_neg hP]

theorem matchPC_dash {c c2 : Char} {rest r3 : Text}
    (hd1 : rest.takeWhile goIsDigit ≠ [])
    (hdrop : rest.drop (rest.takeWhile goIsDigit).length = c2 :: r3)
    (hc2 : c2 = '-') :
    matchPC (c :: rest) =
      if c = 'P' || c = 'p' then
        (if (r3.takeWhile goIsDigit ≠ [] &&
            pcBoundary (r3.drop (r3.takeWhile goIsDigit).length)) = true then
          some (1 + (rest.takeWhile goIsDigit).length + 1 +
            (r3.takeWhile goIsDigit).length)
        else some (1 + (rest.takeWhile goIsDigit).length))
      else none := by
  rw [matchPC]
  by_cases hP : (c = 'P' || c = 'p') = true
  · rw [if_pos hP, if_pos hP, if_neg hd1, hdrop]
    show (if c2 = '-' then _ else _) = _
    rw [if_pos hc2]
    by_cases hlong : (r3.takeWhile goIsDigit ≠ [] &&
        pcBoundary (r3.drop (r3.takeWhile goIsDigit).length)) = true
    · rw [if_pos hlong, if_pos hlong]
    · rw [if_neg hlong, if_neg hlong, if_pos (by subst hc2; rfl)]
  · rw [if_neg hP, if_neg hP]

theorem matchPC_nodash {c c2 : Char} {rest r3 : Text}
    (hd1 : rest.takeWhile goIsDigit ≠ [])
    (hdrop : rest.drop (rest.takeWhile goIsDigit).length = c2 :: r3)
    (hc2 : c2 ≠ '-') :
    matchPC (c :: rest) =
      if c = 'P' || c = 'p' then
        (if pcBoundary (c2 :: r3) = true then
          some (1 + (rest.takeWhile goIsDigit).length)
        else none)
      else none := by
  rw [matchPC]
  by_cases hP : (c = 'P' || c = 'p') = true
  · rw [if_pos hP, if_pos hP, if_neg hd1, hdrop]
    show (if c2 = '-' then _ else _) = _
    rw [if_neg hc2]
  · rw [if_neg hP, if_neg hP]

theorem toNat_ofNat_valid (n : Nat) (h : n < 55296) :
    (Char.ofNat n).toNat = n := by
  unfold Char.ofNat
  rw [dif_pos (Or.inl h)]
  rfl

theorem charEq_iff (a b : Char) : a = b ↔ a.toNat = b.toNat := by
  constructor
  · intro h; rw [h]
  · intro h
    apply Char.eq_of_val_eq
    apply UInt32.eq_of_val_eq
    apply Fin.eq_of_val_eq
    exact h

theorem enye_goToUpper (c : Char) :
    (goToUpper c = 'ñ' || goToUpper c = 'Ñ') = (c = 'ñ' || c = 'Ñ') := by
  have h241 : ('ñ').toNat = 241 := rfl
  have h209 : ('Ñ').toNat = 209 := rfl
  rw [Bool.eq_iff_iff]
  unfold goToUpper
  split_ifs with h1 h2 h3 <;>
    simp only [Bool.and_eq_true, decide_eq_true_eq, Bool.or_eq_true,
      charEq_iff, h241, h209, ne_eq] at * <;>
    (try rw [toNat_ofNat_valid _ (by omega)]) <;> omega

theorem enye_goToLower (c : Char) :
    (goToLower c = 'ñ' || goToLower c = 'Ñ') = (c = 'ñ' || c = 'Ñ') := by
  have h241 : ('ñ').toNat = 241 := rfl
  have h209 : ('Ñ').toNat = 209 := rfl
  rw [Bool.eq_iff_iff]
  unfold goToLower
  split_ifs with h1 h2 <;>
    simp only [Bool.and_eq_true, decide_eq_true_eq, Bool.or_eq_true,
      charEq_iff, h241, h209, ne_eq] at * <;>
    (try rw [toNat_ofNat_valid _ (by omega)]) <;> omega

theorem enye_accentFold (c : Char) :
    (accentFold c = 'ñ' || accentFold c = 'Ñ') = (c = 'ñ' || c = 'Ñ') := by
  by_cases h1 : c = 'á'
  · subst h1; decide
  by_cases h2 : c = 'é'
  · subst h2; decide
  by_cases h3 : c = 'í'
  · subst h3; decide
  by_cases h4 : c = 'ó'
  · subst h4; decide
  by_cases h5 : c = 'ú'
  · subst h5; decide
  by_cases h6 : c = 'Á'
  · subst h6; decide
  by_cases h7 : c = 'É'
  · subst h7; decide
  by_cases h8 : c = 'Í'
  · subst h8; decide
  by_cases h9 : c = 'Ó'
  · subst h9; decide
  by_cases h10 : c = 'Ú'
  · subst h10; decide
  by_cases h11 : c = 'ü'
  · subst h11; decide
  by_cases h12 : c = 'Ü'
  · subst h12; decide
  by_cases h13 : c = 'à'
  · subst h13; decide
  by_cases h14 : c = 'è'
  · subst h14; decide
  by_cases h15 : c = 'ì'
  · subst h15; decide
  by_cases h16 : c = 'ò'
  · subst h16; decide
  by_cases h17 : c = 'ù'
  · subst h17; decide
  by_cases h18 : c = 'À'
  · subst h18; decide
  by_cases h19 : c = 'È'
  · subst h19; decide
  by_cases h20 : c = 'Ì'
  · subst h20; decide
  by_cases h21 : c = 'Ò'
  · subst h21; decide
  by_cases h22 : c = 'Ù'
  · subst h22; decide
  have hid : accentFold c = c := by
    unfold accentFold
    rw [if_neg h1, if_neg h2, if_neg h3, if_neg h4, if_neg h5, if_neg h6, if_neg h7, if_neg h8, if_neg h9, if_neg h10, if_neg h11, if_neg h12, if_neg h13, if_neg h14, if_neg h15, if_neg h16, if_neg h17, if_neg h18, if_neg h19, if_neg h20, if_neg h21, if_neg h22]
  rw [hid]

theorem takeWhile_stop_append (p : Char → Bool) {y : Char}
    (hy : p y = false) (xs ys : Text) :
    ((xs ++ y :: ys).takeWhile p) = xs.takeWhile p := by
  induction xs with
  | nil => simp [List.takeWhile_cons, hy]
  | cons x xs ih =>
      simp only [List.cons_append, List.takeWhile_cons]
      cases p x <;> simp [ih]

theorem dropWhile_stop_append (p : Char → Bool) {y : Char}
    (hy : p y = false) (xs ys : Text) :
    ((xs ++ y :: ys).dropWhile p) = xs.dropWhile p ++ y :: ys := by
  induction xs with
  | nil => simp [List.dropWhile_cons, hy]
  | cons x xs ih =>
      simp only [List.cons_append, List.dropWhile_cons]
      cases p x <;> simp [ih]

theorem joinSpace_cons₂ (x y : Text) (l : List Text) :
    joinSpace (x :: y :: l) = x ++ ' ' :: joinSpace (y :: l) := by
  simp [joinSpace, List.intersperse]

theorem fields_single {w : Text} (hne : w ≠ [])
    (hws : w.all (fun c => !goIsSpace c) = true) : fields w = [w] := by
  cases w with
  | nil => exact absurd rfl hne
  | cons c u =>
      simp only [List.all_cons, Bool.and_eq_true, List.all_eq_true,
        Bool.not_eq_true'] at hws
      rw [fields_cons, if_neg (by simp [hws.1])]
      have ht : u.takeWhile (fun x => !goIsSpace x) = u :=
        List.takeWhile_eq_self_iff.mpr (by
          intro a ha; simp [hws.2 a ha])
      have hd : u.dropWhile (fun x => !goIsSpace x) = [] :=
        List.dropWhile_eq_nil_iff.mpr (by
          intro a ha; simp [hws.2 a ha])
      rw [ht, hd]
      rfl

theorem fields_word_append {w : Text} (t : Text) (hne : w ≠ [])
    (hws : w.all (fun c => !goIsSpace c) = true) :
    fields (w ++ ' ' :: t) = w :: fields t := by
  cases w with
  | nil => exact absurd rfl hne
  | cons c u =>
      simp only [List.all_cons, Bool.and_eq_true, List.all_eq_true,
        Bool.not_eq_true'] at hws
      rw [List.cons_append, fields_cons, if_neg (by simp [hws.1])]
      have hsp : (fun x => !goIsSpace x) ' ' = false := by decide
      rw [takeWhile_stop_append _ hsp, dropWhile_stop_append _ hsp]
      have ht : u.takeWhile (fun x => !goIsSpace x) = u :=
        List.takeWhile_eq_self_iff.mpr (by
          intro a ha; simp [hws.2 a ha])
      have hd : u.dropWhile (fun x => !goIsSpace x) = [] :=
        List.dropWhile_eq_nil_iff.mpr (by
          intro a ha; simp [hws.2 a ha])
      rw [ht, hd]
      simp only [List.nil_append]
      rw [fields_cons, if_pos (by decide)]

theorem fields_join : ∀ {ws : List Text}, wfTokens ws = true →
    fields (joinSpace ws) = ws := by
  intro ws
  induction ws with
  | nil => intro _; rfl
  | cons w ws ih =>
      intro hwf
      simp only [wfTokens, List.all_cons, Bool.and_eq_true] at hwf
      have hne : w ≠ [] := by
        intro h; subst h; simp at hwf
      have hsp : w.all (fun c => !goIsSpace c) = true := hwf.1.2
      cases ws with
      | nil =>
          have hj : joinSpace [w] = w := by simp [joinSpace]
          rw [hj]
          exact fields_single hne hsp
      | cons w' ws' =>
          rw [joinSpace_cons₂, fields_word_append _ hne hsp]
          rw [ih (by simp [wfTokens, hwf.2])]

theorem joinSpace_single (w : Text) : joinSpace [w] = w := by
  simp [joinSpace]

theorem fields_wf_aux : ∀ (n : Nat) (t : Text), t.length ≤ n →
    wfTokens (fields t) = true := by
  intro n
  induction n with
  | zero =>
      intro t ht
      have : t = [] := List.length_eq_zero.mp (Nat.le_zero.mp ht)
      subst this; rfl
  | succ n ih =>
      intro t ht
      cases t with
      | nil => rfl
      | cons c rest =>
          rw [fields_cons]
          by_cases hc : goIsSpace c = true
          · rw [if_pos hc]
            exact ih rest (by simp at ht; omega)
          · rw [if_neg hc]
            simp only [wfTokens, List.all_cons, Bool.and_eq_true] at *
            refine ⟨⟨rfl, ?_⟩, ?_⟩
            · simp only [List.all_cons, Bool.and_eq_true, List.all_eq_true]
              refine ⟨by simp [hc], ?_⟩
              intro a ha
              simpa using List.mem_takeWhile_imp ha
            · have := ih (rest.dropWhile (fun x => !goIsSpace x))
                (le_trans (List.dropWhile_sublist _).length_le
                  (by simp at ht; omega))
              simpa [wfTokens, List.all_eq_true] using this

theorem fields_wf (t : Text) : wfTokens (fields t) = true :=
  fields_wf_aux t.length t le_rfl

theorem fields_chars_aux : ∀ (n : Nat) (t : Text), t.length ≤ n →
    ∀ w ∈ fields t, ∀ c ∈ w, c ∈ t := by
  intro n
  induction n with
  | zero =>
      intro t ht
      have : t = [] := List.length_eq_zero.mp (Nat.le_zero.mp ht)
      subst this; intro w hw; simp [fields, fieldsGo] at hw
  | succ n ih =>
      intro t ht w hw c hc
      cases t with
      | nil => simp [fields, fieldsGo] at hw
      | cons a rest =>
          rw [fields_cons] at hw
          by_cases ha : goIsSpace a = true
          · rw [if_pos ha] at hw
            exact List.mem_cons_of_mem a
              (ih rest (by simp at ht; omega) w hw c hc)
          · rw [if_neg ha] at hw
            rcases List.mem_cons.mp hw with h | h
            · subst h
              rcases List.mem_cons.mp hc with h | h
              · subst h; exact List.mem_cons_self _ _
              · exact List.mem_cons_of_mem a
                  ((List.takeWhile_sublist _).subset h)
            · have := ih (rest.dropWhile (fun x => !goIsSpace x))
                (le_trans (List.dropWhile_sublist _).length_le
                  (by simp at ht; omega)) w h c hc
              exact List.mem_cons_of_mem a
                ((List.dropWhile_sublist _).subset this)

theorem fields_chars {t : Text} {w : Text} (hw : w ∈ fields t)
    {c : Char} (hc : c ∈ w) : c ∈ t :=
  fields_chars_aux t.length t le_rfl w hw c hc

theorem joinSpace_chars : ∀ (ws : List Text) (c : Char),
    c ∈ joinSpace ws → c = ' ' ∨ ∃ w ∈ ws, c ∈ w := by
  intro ws
  induction ws with
  | nil => intro c hc; simp [joinSpace] at hc
  | cons w ws ih =>
      intro c hc
      cases ws with
      | nil =>
          rw [joinSpace_single] at hc
          exact Or.inr ⟨w, List.mem_cons_self _ _, hc⟩
      | cons w' ws' =>
          rw [joinSpace_cons₂] at hc
          rcases List.mem_append.mp hc with h | h
          · exact Or.inr ⟨w, List.mem_cons_self _ _, h⟩
          · rcases List.mem_cons.mp h with h | h
            · exact Or.inl h
            · rcases ih c h with h | ⟨u, hu, hcu⟩
              · exact Or.inl h
              · exact Or.inr ⟨u, List.mem_cons_of_mem _ hu, hcu⟩

theorem map_joinSpace (f : Char → Char) (hf : f ' ' = ' ') :
    ∀ ws : List Text,
      (joinSpace ws).map f = joinSpace (ws.map (List.map f)) := by
  intro ws
  induction ws with
  | nil => rfl
  | cons w ws ih =>
      cases ws with
      | nil => simp [joinSpace_single]
      | cons w' ws' =>
          rw [joinSpace_cons₂, List.map_append, List.map_cons, hf, ih]
          simp [joinSpace_cons₂]

theorem trimSpace_sublist (s : Text) : List.Sublist (trimSpace s) s := by
  have h1 : List.Sublist (s.dropWhile goIsSpace) s := List.dropWhile_sublist _
  have h2 : List.Sublist ((s.dropWhile goIsSpace).reverse.dropWhile goIsSpace)
      (s.dropWhile goIsSpace).reverse := List.dropWhile_sublist _
  have h3 := h2.reverse
  rw [List.reverse_reverse] at h3
  exact h3.trans h1

theorem pcBoundary_append (xs t : Text) :
    pcBoundary (xs ++ ' ' :: t) = pcBoundary xs := by
  cases xs with
  | nil => show (!isWordChar ' ') = true; decide
  | cons x xs => rfl

theorem drop_append_of_le (n : Nat) (l₁ l₂ : Text) (h : n ≤ l₁.length) :
    (l₁ ++ l₂).drop n = l₁.drop n ++ l₂ := by
  rw [List.drop_append_eq_append_drop, Nat.sub_eq_zero_of_le h,
    List.drop_zero]

theorem matchPC_bounds : ∀ {s : Text} {n : Nat}, matchPC s = some n →
    1 ≤ n ∧ n ≤ s.length := by
  intro s n h
  cases s with
  | nil => simp [matchPC] at h
  | cons c rest =>
      by_cases hP : (c = 'P' || c = 'p') = true
      · by_cases hd1 : rest.takeWhile goIsDigit = []
        · rw [matchPC_no_digit hd1] at h; cases h
        · have hlen : (rest.takeWhile goIsDigit).length ≤ rest.length :=
            (List.takeWhile_sublist _).length_le
          rcases hdrop : rest.drop (rest.takeWhile goIsDigit).length with
            _ | ⟨c2, r3⟩
          · rw [matchPC_end hd1 hdrop, if_pos hP] at h
            simp only [Option.some.injEq] at h
            subst h
            simp only [List.length_cons]
            omega
          · have hr3 : rest.length =
                (rest.takeWhile goIsDigit).length + 1 + r3.length := by
              have := congrArg List.length hdrop
              simp only [List.length_drop, List.length_cons] at this
              omega
            by_cases hc2 : c2 = '-'
            · rw [matchPC_dash hd1 hdrop hc2, if_pos hP] at h
              by_cases hlong : (r3.takeWhile goIsDigit ≠ [] &&
                  pcBoundary (r3.drop (r3.takeWhile goIsDigit).length)) =
                    true
              · rw [if_pos hlong] at h
                simp only [Option.some.injEq] at h
                subst h
                have : (r3.takeWhile goIsDigit).length ≤ r3.length :=
                  (List.takeWhile_sublist _).length_le
                simp only [List.length_cons]
                omega
              · rw [if_neg hlong] at h
                simp only [Option.some.injEq] at h
                subst h
                simp only [List.length_cons]
                omega
            · rw [matchPC_nodash hd1 hdrop hc2, if_pos hP] at h
              by_cases hb : pcBoundary (c2 :: r3) = true
              · rw [if_pos hb] at h
                simp only [Option.some.injEq] at h
                subst h
                simp only [List.length_cons]
                omega
              · rw [if_neg hb] at h; cases h
      · have hP' : (c = 'P' || c = 'p') = false := by
          cases hcb : (c = 'P' || c = 'p')
          · rfl
          · exact absurd hcb hP
        rw [matchPC_not_p rest hP'] at h
        cases h

theorem matchPC_append_space (u t : Text) :
    matchPC (u ++ ' ' :: t) = matchPC u := by
  cases u with
  | nil =>
      rw [List.nil_append, matchPC_not_p t (by decide)]
      rfl
  | cons c u' =>
      by_cases hP : (c = 'P' || c = 'p') = true
      · have hsp : goIsDigit ' ' = false := by decide
        have htw : (u' ++ ' ' :: t).takeWhile goIsDigit =
            u'.takeWhile goIsDigit := takeWhile_stop_append _ hsp _ _
        have hd1len : (u'.takeWhile goIsDigit).length ≤ u'.length :=
          (List.takeWhile_sublist _).length_le
        have hdr : (u' ++ ' ' :: t).drop (u'.takeWhile goIsDigit).length =
            u'.drop (u'.takeWhile goIsDigit).length ++ ' ' :: t :=
          drop_append_of_le _ _ _ hd1len
        by_cases hd1 : u'.takeWhile goIsDigit = []
        · rw [List.cons_append,
            matchPC_no_digit (htw.trans hd1), matchPC_no_digit hd1]
        · have hd1' : (u' ++ ' ' :: t).takeWhile goIsDigit ≠ [] := by
            rw [htw]; exact hd1
          rcases hu2 : u'.drop (u'.takeWhile goIsDigit).length with
            _ | ⟨c2, r3⟩
          · have hdropl : (u' ++ ' ' :: t).drop
                (((u' ++ ' ' :: t).takeWhile goIsDigit)).length =
                ' ' :: t := by
              rw [htw, hdr, hu2, List.nil_append]
            have hb : pcBoundary (' ' :: t) = true := by
              show (!isWordChar ' ') = true; decide
            rw [List.cons_append,
              matchPC_nodash hd1' hdropl (by decide),
              matchPC_end hd1 hu2, htw, if_pos hP, if_pos hP, if_pos hb]
          · have hdropl : (u' ++ ' ' :: t).drop
                (((u' ++ ' ' :: t).takeWhile goIsDigit)).length =
                c2 :: (r3 ++ ' ' :: t) := by
              rw [htw, hdr, hu2, List.cons_append]
            by_cases hc2 : c2 = '-'
            · have htw2 : (r3 ++ ' ' :: t).takeWhile goIsDigit =
                  r3.takeWhile goIsDigit := takeWhile_stop_append _ hsp _ _
              have hd2len : (r3.takeWhile goIsDigit).length ≤ r3.length :=
                (List.takeWhile_sublist _).length_le
              have hdr2 : (r3 ++ ' ' :: t).drop
                  (r3.takeWhile goIsDigit).length =
                  r3.drop (r3.takeWhile goIsDigit).length ++ ' ' :: t :=
                drop_append_of_le _ _ _ hd2len
              rw [List.cons_append,
                matchPC_dash hd1' hdropl hc2,
                matchPC_dash hd1 hu2 hc2, htw, htw2, hdr2,
                pcBoundary_append]
            · rw [List.cons_append,
                matchPC_nodash hd1' hdropl hc2,
                matchPC_nodash hd1 hu2 hc2, htw]
              have hpcb : pcBoundary (c2 :: (r3 ++ ' ' :: t)) =
                  pcBoundary (c2 :: r3) := rfl
              rw [hpcb]
      · have hP' : (c = 'P' || c = 'p') = false := by
          cases hcb : (c = 'P' || c = 'p')
          · rfl
          · exact absurd hcb hP
        rw [List.cons_append, matchPC_not_p _ hP', matchPC_not_p _ hP']

theorem scanPC_space_head (prev : Bool) (t : Text) :
    scanPC prev (' ' :: t) = ' ' :: scanPC false t := by
  rw [scanPC_cons]
  have hm : (if prev then none else matchPC (' ' :: t)) = none := by
    cases prev
    · simp [matchPC_not_p (c := ' ') t (by decide)]
    · simp
  rw [hm]
  show ' ' :: scanPC (isWordChar ' ') t = ' ' :: scanPC false t
  have hw : isWordChar ' ' = false := by decide
  rw [hw]

theorem scanPC_sublist_aux : ∀ (n : Nat) (prev : Bool) (t : Text),
    t.length ≤ n → List.Sublist (scanPC prev t) t := by
  intro n
  induction n with
  | zero =>
      intro prev t ht
      have : t = [] := List.length_eq_zero.mp (Nat.le_zero.mp ht)
      subst this
      exact List.Sublist.refl _
  | succ n ih =>
      intro prev t ht
      cases t with
      | nil => exact List.Sublist.refl _
      | cons c rest =>
          simp only [List.length_cons] at ht
          rw [scanPC_cons]
          cases hm : (if prev then none else matchPC (c :: rest)) with
          | none =>
              exact List.Sublist.cons₂ c (ih (isWordChar c) rest (by omega))
          | some m =>
              refine List.Sublist.trans
                (ih true (rest.drop (m - 1)) ?_)
                (List.Sublist.trans (List.drop_sublist _ _)
                  (List.sublist_cons_self c rest))
              have := (List.drop_sublist (m - 1) rest).length_le
              omega

theorem scanPC_sublist (prev : Bool) (t : Text) :
    List.Sublist (scanPC prev t) t :=
  scanPC_sublist_aux t.length prev t le_rfl

theorem scanPC_append_space_aux : ∀ (n : Nat) (u : Text), u.length ≤ n →
    ∀ (prev : Bool) (t : Text),
    scanPC prev (u ++ ' ' :: t) = scanPC prev u ++ ' ' :: scanPC false t := by
  intro n
  induction n with
  | zero =>
      intro u hu prev t
      have : u = [] := List.length_eq_zero.mp (Nat.le_zero.mp hu)
      subst this
      rw [List.nil_append, scanPC_space_head]
      rfl
  | succ n ih =>
      intro u hu prev t
      cases u with
      | nil =>
          rw [List.nil_append, scanPC_space_head]
          rfl
      | cons c u' =>
          simp only [List.length_cons] at hu
          rw [List.cons_append, scanPC_cons, scanPC_cons]
          have hmeq : matchPC (c :: (u' ++ ' ' :: t)) = matchPC (c :: u') := by
            rw [← List.cons_append]
            exact matchPC_append_space _ _
          rw [hmeq]
          cases hm : (if prev then none else matchPC (c :: u')) with
          | none =>
              show c :: scanPC (isWordChar c) (u' ++ ' ' :: t) =
                (c :: scanPC (isWordChar c) u') ++ ' ' :: scanPC false t
              rw [ih u' (by omega), List.cons_append]
          | some m =>
              have hmm : matchPC (c :: u') = some m := by
                cases prev
                · simpa using hm
                · simp at hm
              have hb := matchPC_bounds hmm
              simp only [List.length_cons] at hb
              have hdr : (u' ++ ' ' :: t).drop (m - 1) =
                  u'.drop (m - 1) ++ ' ' :: t :=
                drop_append_of_le _ _ _ (by omega)
              show scanPC true ((u' ++ ' ' :: t).drop (m - 1)) =
                scanPC true (u'.drop (m - 1)) ++ ' ' :: scanPC false t
              rw [hdr]
              exact ih _ (by simp only [List.length_drop]; omega) true t

theorem scanPC_append_space (u : Text) (prev : Bool) (t : Text) :
    scanPC prev (u ++ ' ' :: t) = scanPC prev u ++ ' ' :: scanPC false t :=
  scanPC_append_space_aux u.length u le_rfl prev t

theorem scanPC_joinSpace : ∀ ws : List Text,
    scanPC false (joinSpace ws) = joinSpace (ws.map (scanPC false)) := by
  intro ws
  induction ws with
  | nil => rfl
  | cons w ws ih =>
      cases ws with
      | nil => rw [List.map_cons, List.map_nil, joinSpace_single,
          joinSpace_single]
      | cons w' ws' =>
          rw [joinSpace_cons₂, scanPC_append_space, ih]
          simp [joinSpace_cons₂]

theorem enyeCount_cons (c : Char) (t : Text) :
    enyeCount (c :: t) =
      (if (c = 'ñ' || c = 'Ñ') = true then 1 else 0) + enyeCount t := by
  simp only [enyeCount, List.filter_cons]
  split
  · simp [Nat.add_comm]
  · simp

theorem enyeCount_append (a b : Text) :
    enyeCount (a ++ b) = enyeCount a + enyeCount b := by
  simp [enyeCount, List.filter_append]

theorem enyeCount_zero {t : Text}
    (h : ∀ c ∈ t, (c = 'ñ' || c = 'Ñ') = false) : enyeCount t = 0 := by
  simp only [enyeCount, List.length_eq_zero, List.filter_eq_nil_iff]
  intro a ha
  simp [h a ha]

theorem enyeCount_map {f : Char → Char}
    (hf : ∀ c, (f c = 'ñ' || f c = 'Ñ') = (c = 'ñ' || c = 'Ñ')) (t : Text) :
    enyeCount (t.map f) = enyeCount t := by
  induction t with
  | nil => rfl
  | cons c t ih =>
      rw [List.map_cons, enyeCount_cons, enyeCount_cons, ih, hf]

theorem enyeCount_reverse (t : Text) : enyeCount t.reverse = enyeCount t := by
  simp [enyeCount, List.filter_reverse]

theorem enyeCount_dropWhile {q : Char → Bool}
    (hq : ∀ c, q c = true → (c = 'ñ' || c = 'Ñ') = false) (t : Text) :
    enyeCount (t.dropWhile q) = enyeCount t := by
  conv_rhs => rw [← List.takeWhile_append_dropWhile (p := q) (l := t)]
  rw [enyeCount_append, enyeCount_zero (fun c hc =>
    hq c (List.mem_takeWhile_imp hc))]
  omega

theorem enye_not_space (c : Char) (h : goIsSpace c = true) :
    (c = 'ñ' || c = 'Ñ') = false := by
  simp only [goIsSpace, Bool.or_eq_true, decide_eq_true_eq, or_assoc] at h
  rcases h with h|h|h|h|h|h|h|h <;> subst h <;> decide

theorem enye_not_reSpace (c : Char) (h : reIsSpace c = true) :
    (c = 'ñ' || c = 'Ñ') = false := by
  simp only [reIsSpace, Bool.or_eq_true, decide_eq_true_eq, or_assoc] at h
  rcases h with h|h|h|h|h <;> subst h <;> decide

theorem enyeCount_trimSpace (s : Text) :
    enyeCount (trimSpace s) = enyeCount s := by
  unfold trimSpace
  rw [enyeCount_reverse, enyeCount_dropWhile enye_not_space,
    enyeCount_reverse, enyeCount_dropWhile enye_not_space]

theorem enyeCount_filter_keep {q : Char → Bool}
    (hq : ∀ c, (c = 'ñ' || c = 'Ñ') = true → q c = true) (t : Text) :
    enyeCount (t.filter q) = enyeCount t := by
  induction t with
  | nil => rfl
  | cons c t ih =>
      rw [List.filter_cons, enyeCount_cons]
      cases hqc : q c
      · have he : (c = 'ñ' || c = 'Ñ') = false := by
          cases h : (c = 'ñ' || c = 'Ñ')
          · rfl
          · rw [hq c h] at hqc; cases hqc
        rw [if_neg (by simp [hqc]), ih, he]
        simp
      · rw [if_pos rfl, enyeCount_cons, ih]

theorem enyeCount_joinSpace : ∀ ws : List Text,
    enyeCount (joinSpace ws) = (ws.map enyeCount).sum := by
  intro ws
  induction ws with
  | nil => rfl
  | cons w ws ih =>
      cases ws with
      | nil => simp [joinSpace_single]
      | cons w' ws' =>
          rw [joinSpace_cons₂, enyeCount_append, enyeCount_cons, ih]
          simp

theorem enyeCount_fields_aux : ∀ (n : Nat) (t : Text), t.length ≤ n →
    ((fields t).map enyeCount).sum = enyeCount t := by
  intro n
  induction n with
  | zero =>
      intro t ht
      have : t = [] := List.length_eq_zero.mp (Nat.le_zero.mp ht)
      subst this; rfl
  | succ n ih =>
      intro t ht
      cases t with
      | nil => rfl
      | cons c rest =>
          simp only [List.length_cons] at ht
          rw [fields_cons]
          by_cases hc : goIsSpace c = true
          · rw [if_pos hc, ih rest (by omega), enyeCount_cons,
              if_neg (by simp [enye_not_space c hc])]
            omega
          · rw [if_neg hc, List.map_cons, List.sum_cons,
              ih (rest.dropWhile (fun x => !goIsSpace x))
                (le_trans (List.dropWhile_sublist _).length_le (by omega))]
            conv_rhs => rw [show c :: rest =
              (c :: rest.takeWhile (fun x => !goIsSpace x)) ++
                rest.dropWhile (fun x => !goIsSpace x) from by
              rw [List.cons_append, List.takeWhile_append_dropWhile]]
            rw [enyeCount_append]

theorem enyeCount_fields (t : Text) :
    ((fields t).map enyeCount).sum = enyeCount t :=
  enyeCount_fields_aux t.length t le_rfl

theorem sum_map_filter_zero {pred : Text → Bool} :
    ∀ {ws : List Text}, (∀ w ∈ ws, pred w = false → enyeCount w = 0) →
    ((ws.filter pred).map enyeCount).sum = (ws.map enyeCount).sum := by
  intro ws
  induction ws with
  | nil => intro _; rfl
  | cons w ws ih =>
      intro h
      rw [List.filter_cons]
      cases hp : pred w
      · rw [if_neg (by simp [hp]),
          ih (fun u hu hpu => h u (List.mem_cons_of_mem _ hu) hpu),
          List.map_cons, List.sum_cons, h w (List.mem_cons_self _ _) hp]
        omega
      · rw [if_pos rfl, List.map_cons, List.sum_cons, List.map_cons,
          List.sum_cons,
          ih (fun u hu hpu => h u (List.mem_cons_of_mem _ hu) hpu)]

theorem enye_false_of (p : Char → Bool) (hn : p 'ñ' = false)
    (hN : p 'Ñ' = false) {c : Char} (h : p c = true) :
    (c = 'ñ' || c = 'Ñ') = false := by
  cases he : (c = 'ñ' || c = 'Ñ')
  · rfl
  · exfalso
    simp only [Bool.or_eq_true, decide_eq_true_eq] at he
    rcases he with he | he <;> subst he
    · rw [hn] at h; exact Bool.noConfusion h
    · rw [hN] at h; exact Bool.noConfusion h

theorem enyeCount_collapseWs_aux : ∀ (n : Nat) (t : Text), t.length ≤ n →
    enyeCount (collapseWs t) = enyeCount t := by
  intro n
  induction n with
  | zero =>
      intro t ht
      have : t = [] := List.length_eq_zero.mp (Nat.le_zero.mp ht)
      subst this; rfl
  | succ n ih =>
      intro t ht
      cases t with
      | nil => rfl
      | cons a rest =>
          simp only [List.length_cons] at ht
          rw [collapseWs_cons]
          by_cases hsp : reIsSpace a = true
          · rw [if_pos hsp, enyeCount_cons, enyeCount_cons,
              if_neg (c := ((a = 'ñ' || a = 'Ñ') = true))
                (by simp [enye_not_reSpace a hsp]),
              if_neg (c := ((' ' = 'ñ' || ' ' = 'Ñ') = true)) (by decide),
              ih (rest.dropWhile reIsSpace)
                (le_trans (List.dropWhile_sublist _).length_le (by omega)),
              enyeCount_dropWhile enye_not_reSpace]
          · rw [if_neg hsp, enyeCount_cons, enyeCount_cons,
              ih rest (by omega)]

theorem enyeCount_collapseWs (t : Text) :
    enyeCount (collapseWs t) = enyeCount t :=
  enyeCount_collapseWs_aux t.length t le_rfl

theorem enyeCount_NormalizeSpanishAccents (s : Text) :
    enyeCount (NormalizeSpanishAccents defaultConfig s) = enyeCount s := by
  rw [NormalizeSpanishAccents, if_neg (by decide)]
  exact enyeCount_map enye_accentFold s

theorem enyeCount_MakeUppercase (s : Text) :
    enyeCount (MakeUppercase defaultConfig s) = enyeCount s := by
  rw [MakeUppercase, if_neg (by decide)]
  exact enyeCount_map enye_goToUpper s

theorem enyeCount_MakeLowercase (s : Text) :
    enyeCount (MakeLowercase defaultConfig s) = enyeCount s := by
  rw [MakeLowercase, if_neg (by decide)]
  exact enyeCount_map enye_goToLower s

theorem enyeCount_replaceAllChar {sep : Char}
    (hsep : (sep = 'ñ' || sep = 'Ñ') = false) (t : Text) :
    enyeCount (replaceAllChar sep [' '] t) = enyeCount t := by
  induction t with
  | nil => rfl
  | cons c t ih =>
      have hstep : replaceAllChar sep [' '] (c :: t) =
          (if c = sep then [' '] else [c]) ++ replaceAllChar sep [' '] t := by
        simp [replaceAllChar]
      rw [hstep, enyeCount_append, ih, enyeCount_cons]
      by_cases hc : c = sep
      · subst hc
        rw [if_pos rfl]
        rw [if_neg (c := ((c = 'ñ' || c = 'Ñ') = true)) (by simp [hsep])]
        rfl
      · rw [if_neg hc, enyeCount_cons]
        have h0 : enyeCount ([] : Text) = 0 := rfl
        rw [h0, Nat.add_zero]

theorem enyeCount_sepFold : ∀ (seps : Text) (acc : Text),
    (∀ x ∈ seps, (x = 'ñ' || x = 'Ñ') = false) →
    enyeCount (seps.foldl
      (fun acc sep => replaceAllChar sep [' '] acc) acc) = enyeCount acc := by
  intro seps
  induction seps with
  | nil => intro acc _; rfl
  | cons x seps ih =>
      intro acc h
      rw [List.foldl_cons,
        ih _ (fun y hy => h y (List.mem_cons_of_mem _ hy)),
        enyeCount_replaceAllChar (h x (List.mem_cons_self _ _))]

theorem enyeCount_ReplaceSeparators (s : Text) :
    enyeCount (ReplaceSeparators defaultConfig s) = enyeCount s := by
  rw [ReplaceSeparators, if_neg (by decide)]
  have hrep : defaultConfig.separatorReplacement = [' '] := rfl
  rw [hrep]
  exact enyeCount_sepFold _ s (by decide)

theorem enyeCount_RemoveMultipleWhitespace (s : Text) :
    enyeCount (RemoveMultipleWhitespace defaultConfig s) = enyeCount s := by
  rw [RemoveMultipleWhitespace, if_neg (by decide), enyeCount_trimSpace,
    enyeCount_collapseWs]

theorem enyeCount_RemoveSpecialChars (s : Text) :
    enyeCount (RemoveSpecialChars defaultConfig s) = enyeCount s := by
  rw [RemoveSpecialChars, if_neg (by decide)]
  refine enyeCount_filter_keep ?_ s
  intro c h
  simp only [Bool.or_eq_true, decide_eq_true_eq] at h
  rcases h with h | h <;> subst h <;> decide

theorem enyeCount_RemoveWordsFromList (s : Text) :
    enyeCount (RemoveWordsFromList defaultConfig s) = enyeCount s := by
  rw [RemoveWordsFromList, if_neg (by decide), enyeCount_joinSpace,
    sum_map_filter_zero ?hz, enyeCount_fields,
    enyeCount_map enye_goToUpper]
  case hz =>
    intro w _ hsk
    simp only [stopKeep, Bool.not_eq_false'] at hsk
    have hall : ∀ u ∈ (defaultConfig.toRemove.map
        (fun k => k.map goToUpper)), enyeCount u = 0 := by decide
    apply hall
    simpa [inRemoveSet, List.contains] using hsk

theorem enyeCount_RemoveAllNumbersWordsExcept (s : Text) :
    enyeCount (RemoveAllNumbersWordsExcept defaultConfig s) =
      enyeCount s := by
  rw [RemoveAllNumbersWordsExcept, if_neg (by decide),
    enyeCount_joinSpace, sum_map_filter_zero ?hz, enyeCount_fields]
  case hz =>
    intro w _ hnk
    simp only [numericKeep, Bool.or_eq_false_iff, Bool.not_eq_false'] at hnk
    have hdig : w.all goIsDigit = true := by
      have := hnk.1
      simp only [isNumeric, Bool.and_eq_true] at this
      exact this.1
    refine enyeCount_zero ?_
    intro c hc
    exact enye_false_of goIsDigit (by decide) (by decide)
      (List.all_eq_true.mp hdig c hc)

theorem take_takeWhile (p : Char → Bool) (l : Text) :
    l.take (l.takeWhile p).length = l.takeWhile p :=
  (List.prefix_iff_eq_take.mp ( List.takeWhile_prefix _)).symm

theorem enyeCount_takeWhile_digit (l : Text) :
    enyeCount (l.takeWhile goIsDigit) = 0 :=
  enyeCount_zero (fun x hx => enye_false_of goIsDigit (by decide) (by decide)
    (List.mem_takeWhile_imp hx))

theorem matchPC_short_span (c : Char) (rest : Text)
    (hce : (c = 'ñ' || c = 'Ñ') = false) :
    enyeCount (c :: rest.take (1 + (rest.takeWhile goIsDigit).length - 1)) =
      0 := by
  rw [Nat.add_sub_cancel_left, take_takeWhile, enyeCount_cons,
    if_neg (by simp [hce]), enyeCount_takeWhile_digit]

theorem matchPC_span_enye : ∀ {c : Char} {rest : Text} {n : Nat},
    matchPC (c :: rest) = some n →
    enyeCount (c :: rest.take (n - 1)) = 0 := by
  intro c rest n h
  by_cases hP : (c = 'P' || c = 'p') = true
  · have hce : (c = 'ñ' || c = 'Ñ') = false := by
      simp only [Bool.or_eq_true, decide_eq_true_eq] at hP
      rcases hP with h' | h' <;> subst h' <;> decide
    by_cases hd1 : rest.takeWhile goIsDigit = []
    · rw [matchPC_no_digit hd1] at h; cases h
    · rcases hdrop : rest.drop (rest.takeWhile goIsDigit).length with
        _ | ⟨c2, r3⟩
      · rw [matchPC_end hd1 hdrop, if_pos hP] at h
        simp only [Option.some.injEq] at h
        subst h
        exact matchPC_short_span c rest hce
      · by_cases hc2 : c2 = '-'
        · rw [matchPC_dash hd1 hdrop hc2, if_pos hP] at h
          by_cases hlong : (r3.takeWhile goIsDigit ≠ [] &&
              pcBoundary (r3.drop (r3.takeWhile goIsDigit).length)) = true
          · rw [if_pos hlong] at h
            simp only [Option.some.injEq] at h
            subst h
            set D := List.takeWhile goIsDigit rest with hDdef
            set E := List.takeWhile goIsDigit r3 with hEdef
            have htk : rest.take D.length = D := by
              rw [hDdef]; exact take_takeWhile _ _
            have hsplit : D ++ c2 :: r3 = rest := by
              have hta := List.take_append_drop D.length rest
              rw [htk, hdrop] at hta
              exact hta
            have hn1 : 1 + D.length + 1 + E.length - 1 =
                D.length + (E.length + 1) := by omega
            have htk2 : r3.take E.length = E := by
              rw [hEdef]; exact take_takeWhile _ _
            rw [hn1, ← hsplit, List.take_append, List.take_succ_cons, htk2]
            subst hc2
            rw [enyeCount_cons, if_neg (by simp [hce]), enyeCount_append,
              hDdef, hEdef, enyeCount_takeWhile_digit, enyeCount_cons,
              if_neg (by decide), enyeCount_takeWhile_digit]
          · rw [if_neg hlong] at h
            simp only [Option.some.injEq] at h
            subst h
            exact matchPC_short_span c rest hce
        · rw [matchPC_nodash hd1 hdrop hc2, if_pos hP] at h
          by_cases hb : pcBoundary (c2 :: r3) = true
          · rw [if_pos hb] at h
            simp only [Option.some.injEq] at h
            subst h
            exact matchPC_short_span c rest hce
          · rw [if_neg hb] at h; cases h
  · have hP2 : (c = 'P' || c = 'p') = false := by
      cases hcb : (c = 'P' || c = 'p')
      · rfl
      · exact absurd hcb hP
    rw [matchPC_not_p rest hP2] at h
    cases h

theorem enyeCount_scanPC_aux : ∀ (n : Nat) (prev : Bool) (t : Text),
    t.length ≤ n → enyeCount (scanPC prev t) = enyeCount t := by
  intro n
  induction n with
  | zero =>
      intro prev t ht
      have : t = [] := List.length_eq_zero.mp (Nat.le_zero.mp ht)
      subst this; rfl
  | succ n ih =>
      intro prev t ht
      cases t with
      | nil => rfl
      | cons a rest =>
          simp only [List.length_cons] at ht
          rw [scanPC_cons]
          cases hm : (if prev then none else matchPC (a :: rest)) with
          | none =>
              show enyeCount (a :: scanPC (isWordChar a) rest) =
                enyeCount (a :: rest)
              rw [enyeCount_cons, enyeCount_cons,
                ih (isWordChar a) rest (by omega)]
          | some m =>
              have hmm : matchPC (a :: rest) = some m := by
                cases prev
                · simpa using hm
                · simp at hm
              have hspan := matchPC_span_enye hmm
              show enyeCount (scanPC true (rest.drop (m - 1))) =
                enyeCount (a :: rest)
              rw [ih true (rest.drop (m - 1))
                (le_trans (List.drop_sublist _ _).length_le (by omega))]
              conv_rhs => rw [show (a :: rest : Text) =
                (a :: rest.take (m - 1)) ++ rest.drop (m - 1) from by
                  rw [List.cons_append, List.take_append_drop]]
              rw [enyeCount_append, hspan]
              omega

theorem enyeCount_scanPC (prev : Bool) (t : Text) :
    enyeCount (scanPC prev t) = enyeCount t :=
  enyeCount_scanPC_aux t.length prev t le_rfl

theorem enyeCount_RemovePeriodCodes (s : Text) :
    enyeCount (RemovePeriodCodes defaultConfig s) = enyeCount s := by
  rw [RemovePeriodCodes, if_neg (by decide), enyeCount_trimSpace,
    enyeCount_scanPC]

theorem enyeCount_matchPrefixCode : ∀ {t rest : Text},
    matchPrefixCode t = some rest → enyeCount rest = enyeCount t := by
  intro t rest hm
  simp only [matchPrefixCode] at hm
  by_cases h1 : t.takeWhile (fun c => c.isAlpha) = []
  · rw [if_pos h1] at hm; exact Option.noConfusion hm
  · rw [if_neg h1] at hm
    set A := t.takeWhile (fun c => c.isAlpha) with hAdef
    set R := t.drop A.length with hRdef
    by_cases h2 : R.takeWhile goIsDigit = []
    · rw [if_pos h2] at hm; exact Option.noConfusion hm
    · rw [if_neg h2] at hm
      set D := R.takeWhile goIsDigit with hDdef
      rcases hdrop : R.drop D.length with _ | ⟨ch, r3⟩ <;> rw [hdrop] at hm
      · exact Option.noConfusion hm
      · have hm2 : (if ch = '-' then
            (if r3.takeWhile goIsDigit = [] then none
             else some ((r3.drop (r3.takeWhile goIsDigit).length).dropWhile
               reIsSpace)) else none) = some rest := hm
        by_cases hch : ch = '-'
        · rw [if_pos hch] at hm2
          by_cases h3 : r3.takeWhile goIsDigit = []
          · rw [if_pos h3] at hm2; exact Option.noConfusion hm2
          · rw [if_neg h3] at hm2
            set E := r3.takeWhile goIsDigit with hEdef
            have hrest : rest = (r3.drop E.length).dropWhile reIsSpace :=
              (Option.some.inj hm2).symm
            have htA : t.take A.length = A := by
              rw [hAdef]; exact take_takeWhile _ _
            have hsplitT : A ++ R = t := by
              have hta := List.take_append_drop A.length t
              rw [htA] at hta
              rw [hRdef]
              exact hta
            have htD : R.take D.length = D := by
              rw [hDdef]; exact take_takeWhile _ _
            have hsplitR : D ++ ch :: r3 = R := by
              have hta := List.take_append_drop D.length R
              rw [htD, hdrop] at hta
              exact hta
            have htE : r3.take E.length = E := by
              rw [hEdef]; exact take_takeWhile _ _
            have hsplit3 : E ++ r3.drop E.length = r3 := by
              have hta := List.take_append_drop E.length r3
              rw [htE] at hta
              exact hta
            have cA : enyeCount A = 0 := by
              rw [hAdef]
              exact enyeCount_zero (fun x hx =>
                enye_false_of (fun c => c.isAlpha) (by decide) (by decide)
                  (List.mem_takeWhile_imp hx))
            have cD : enyeCount D = 0 := by
              rw [hDdef]; exact enyeCount_takeWhile_digit R
            have cE : enyeCount E = 0 := by
              rw [hEdef]; exact enyeCount_takeWhile_digit r3
            have e1 : enyeCount t = enyeCount A + enyeCount R := by
              rw [← hsplitT, enyeCount_append]
            have e2 : enyeCount R = enyeCount D + enyeCount (ch :: r3) := by
              rw [← hsplitR, enyeCount_append]
            have e3 : enyeCount (ch :: r3) = enyeCount r3 := by
              subst hch
              rw [enyeCount_cons, if_neg (by decide)]
              omega
            have e4 : enyeCount E + enyeCount (r3.drop E.length) =
                enyeCount r3 := by
              conv_rhs => rw [← hsplit3, enyeCount_append]
            have e5 : enyeCount rest = enyeCount (r3.drop E.length) := by
              rw [hrest, enyeCount_dropWhile enye_not_reSpace]
            omega
        · rw [if_neg hch] at hm2; exact Option.noConfusion hm2

theorem enyeCount_RemoveAdvancedPrefixedCodes (s : Text) :
    enyeCount (RemoveAdvancedPrefixedCodes defaultConfig s) =
      enyeCount s := by
  rw [RemoveAdvancedPrefixedCodes, if_neg (by decide)]
  rcases hm : matchPrefixCode s with _ | rest
  · show enyeCount (trimSpace s) = enyeCount s
    exact enyeCount_trimSpace s
  · show enyeCount (trimSpace rest) = enyeCount s
    rw [enyeCount_trimSpace, enyeCount_matchPrefixCode hm]

theorem lower_nf {c : Char} (h : ufChar c = true) :
    nfChar (goToLower c) = true := by
  have h209 : ('Ñ').toNat = 209 := rfl
  have h241 : ('ñ').toNat = 241 := rfl
  simp only [ufChar, Bool.or_eq_true, Bool.and_eq_true, decide_eq_true_eq,
    charEq_iff, h209] at h
  unfold goToLower
  split_ifs with h1 h2 <;>
    simp only [Bool.and_eq_true, decide_eq_true_eq] at h1 <;>
    try simp only [Bool.and_eq_true, decide_eq_true_eq, ne_eq] at h2
  · simp only [nfChar, Bool.or_eq_true, Bool.and_eq_true,
      decide_eq_true_eq, charEq_iff, h241,
      toNat_ofNat_valid _ (by omega : c.toNat + 32 < 55296)]
    omega
  · simp only [nfChar, Bool.or_eq_true, Bool.and_eq_true,
      decide_eq_true_eq, charEq_iff, h241,
      toNat_ofNat_valid _ (by omega : c.toNat + 32 < 55296)]
    omega
  · simp only [nfChar, Bool.or_eq_true, Bool.and_eq_true,
      decide_eq_true_eq, charEq_iff, h241]
    omega

theorem all_of_sublist {P : Char → Bool} {s t : Text}
    (hs : List.Sublist s t) (ht : t.all P = true) : s.all P = true :=
  List.all_eq_true.mpr (fun c hc => List.all_eq_true.mp ht c (hs.subset hc))

theorem tokensStep_all (u : Text) (pred : Text → Bool) (P : Char → Bool)
    (hsp : P ' ' = true) (hu : u.all P = true) :
    (joinSpace ((fields u).filter pred)).all P = true := by
  rw [List.all_eq_true]
  intro c hc
  rcases joinSpace_chars _ c hc with h | ⟨w, hw, hcw⟩
  · subst h; exact hsp
  · exact List.all_eq_true.mp hu c
      (fields_chars (List.mem_filter.mp hw).1 hcw)

theorem wf_filter {ws : List Text} (pred : Text → Bool)
    (h : wfTokens ws = true) : wfTokens (ws.filter pred) = true := by
  simp only [wfTokens, List.all_eq_true] at *
  intro w hw
  exact h w (List.mem_filter.mp hw).1

theorem contains_mem {l : Text} {a : Char} (h : l.contains a = true) :
    a ∈ l := by
  simpa [List.contains, List.elem_iff] using h

theorem upper_allowed : ∀ x ∈ defaultConfig.allowedChars,
    (ufChar (goToUpper x) || (goToUpper x = ' ')) = true := by decide

set_option maxHeartbeats 2000000 in
theorem process_normal_form (t : Text) : ∃ ws : List Text,
    Process defaultConfig t = joinSpace ws ∧
    ws.all (fun w => !w.isEmpty && w.all nfChar) = true := by
  set s7 := RemoveMultipleWhitespace defaultConfig
    (ReplaceSeparators defaultConfig
      (RemoveTrailingSolicitante defaultConfig
        (MakeUppercase defaultConfig
          (NormalizeSpanishAccents defaultConfig
            (RemoveAdvancedPrefixedCodes defaultConfig
              (FixMojibakeEncoding defaultConfig t)))))) with hs7
  set s8 := RemoveSpecialChars defaultConfig s7 with hs8
  set s9 := RemoveWordsFromList defaultConfig s8 with hs9
  set s10 := RemovePeriodCodes defaultConfig s9 with hs10
  set s11 := RemoveAlphanumericWords defaultConfig s10 with hs11
  set s12 := RemoveAllNumbersWordsExcept defaultConfig s11 with hs12
  set s13 := RemoveWordsByMinLen defaultConfig s12 with hs13
  have hProc : Process defaultConfig t =
      MakeLowercase defaultConfig
        (RemoveAllConsonantsWords defaultConfig s13) := by
    rw [hs13, hs12, hs11, hs10, hs9, hs8, hs7]
    simp only [Process, pipeline, List.foldl]
  have h9 : s9.all (fun c => ufChar c || c = ' ') = true := by
    rw [hs9, RemoveWordsFromList, if_neg (by decide)]
    apply tokensStep_all _ _ _ (by decide)
    rw [List.all_eq_true]
    intro c hc
    rcases List.mem_map.mp hc with ⟨a, ha, rfl⟩
    have hmem : defaultConfig.allowedChars.contains a = true := by
      rw [hs8, RemoveSpecialChars, if_neg (by decide)] at ha
      exact (List.mem_filter.mp ha).2
    exact upper_allowed a (contains_mem hmem)
  have h10 : s10.all (fun c => ufChar c || c = ' ') = true := by
    rw [hs10, RemovePeriodCodes, if_neg (by decide)]
    exact all_of_sublist
      ((trimSpace_sublist _).trans (scanPC_sublist false s9)) h9
  have h11 : s11.all (fun c => ufChar c || c = ' ') = true := by
    rw [hs11, RemoveAlphanumericWords, if_neg (by decide)]
    exact tokensStep_all _ _ _ (by decide) h10
  have h12 : s12.all (fun c => ufChar c || c = ' ') = true := by
    rw [hs12, RemoveAllNumbersWordsExcept, if_neg (by decide)]
    exact tokensStep_all _ _ _ (by decide) h11
  have h13 : s13.all (fun c => ufChar c || c = ' ') = true := by
    rw [hs13, RemoveWordsByMinLen, if_neg (by decide)]
    exact tokensStep_all _ _ _ (by decide) h12
  have h13wf : wfTokens ((fields s13).filter (vowelKeep defaultConfig)) =
      true := wf_filter _ (fields_wf s13)
  refine ⟨((fields s13).filter (vowelKeep defaultConfig)).map
    (List.map goToLower), ?_, ?_⟩
  · rw [hProc, MakeLowercase, if_neg (by decide),
      RemoveAllConsonantsWords, if_neg (by decide)]
    exact map_joinSpace goToLower (by decide) _
  · simp only [wfTokens, List.all_eq_true] at h13wf
    rw [List.all_eq_true]
    intro w' hw'
    rcases List.mem_map.mp hw' with ⟨w, hw, rfl⟩
    have hwprop := h13wf w hw
    rw [Bool.and_eq_true] at hwprop
    rw [Bool.and_eq_true]
    refine ⟨?_, ?_⟩
    · cases w with
      | nil => simp at hwprop
      | cons a u => simp
    · rw [List.all_eq_true]
      intro c' hc'
      rcases List.mem_map.mp hc' with ⟨c, hcw, rfl⟩
      have hcs13 : c ∈ s13 := fields_chars (List.mem_filter.mp hw).1 hcw
      have hPc := List.all_eq_true.mp h13 c hcs13
      simp only [Bool.or_eq_true, decide_eq_true_eq] at hPc
      rcases hPc with hPc | hPc
      · exact lower_nf hPc
      · exfalso
        have hns := List.all_eq_true.mp hwprop.2 c hcw
        subst hPc
        exact absurd hns (by decide)

end Refinery

/-- C6: on any well-formed token list, each of the last five filters of
the v1 pipeline acts tokenwise — the period-code removal rewrites each
token independently by the scan, and the four word filters keep exactly
the tokens passing their keep test — and every token of the configured
preserve set passes all four keep tests and is left unchanged by the
period-code scan, so a preserve-set token is left in place unchanged by
each of the five filters whatever the surrounding text. -/
theorem C6_keep_tokens_bypass_filters (ws : List Refinery.Text)
    (hwf : Refinery.wfTokens ws = true) :
    (Refinery.RemovePeriodCodes Refinery.defaultConfig
        (Refinery.joinSpace ws) =
      Refinery.trimSpace (Refinery.joinSpace
        (ws.map (Refinery.scanPC false)))) ∧
    (Refinery.RemoveAlphanumericWords Refinery.defaultConfig
        (Refinery.joinSpace ws) =
      Refinery.joinSpace (ws.filter
        (Refinery.alnumKeep Refinery.defaultConfig))) ∧
    (Refinery.RemoveAllNumbersWordsExcept Refinery.defaultConfig
        (Refinery.joinSpace ws) =
      Refinery.joinSpace (ws.filter
        (Refinery.numericKeep Refinery.defaultConfig))) ∧
    (Refinery.RemoveWordsByMinLen Refinery.defaultConfig
        (Refinery.joinSpace ws) =
      Refinery.joinSpace (ws.filter
        (Refinery.minLenKeep Refinery.defaultConfig))) ∧
    (Refinery.RemoveAllConsonantsWords Refinery.defaultConfig
        (Refinery.joinSpace ws) =
      Refinery.joinSpace (ws.filter
        (Refinery.vowelKeep Refinery.defaultConfig))) ∧
    (∀ w ∈ Refinery.defaultConfig.toKeep,
      Refinery.scanPC false w = w ∧
      Refinery.alnumKeep Refinery.defaultConfig w = true ∧
      Refinery.numericKeep Refinery.defaultConfig w = true ∧
      Refinery.minLenKeep Refinery.defaultConfig w = true ∧
      Refinery.vowelKeep Refinery.defaultConfig w = true) := by
  refine ⟨?_, ?_, ?_, ?_, ?_, by decide⟩
  · rw [Refinery.RemovePeriodCodes, if_neg (by decide),
      Refinery.scanPC_joinSpace]
  · rw [Refinery.RemoveAlphanumericWords, if_neg (by decide),
      Refinery.fields_join hwf]
  · rw [Refinery.RemoveAllNumbersWordsExcept, if_neg (by decide),
      Refinery.fields_join hwf]
  · rw [Refinery.RemoveWordsByMinLen, if_neg (by decide),
      Refinery.fields_join hwf]
  · rw [Refinery.RemoveAllConsonantsWords, if_neg (by decide),
      Refinery.fields_join hwf]

/-- Witness for C6: the theorem applied to the concrete token list
`["TV", "P12"]`, whose first token is in the preserve set and whose
second is a period code. -/
theorem C6_keep_tokens_bypass_filters_witness :
    Refinery.wfTokens ["TV".toList, "P12".toList] = true ∧
    ((Refinery.RemovePeriodCodes Refinery.defaultConfig
        (Refinery.joinSpace ["TV".toList, "P12".toList]) =
      Refinery.trimSpace (Refinery.joinSpace
        (["TV".toList, "P12".toList].map (Refinery.scanPC false)))) ∧
    (Refinery.RemoveAlphanumericWords Refinery.defaultConfig
        (Refinery.joinSpace ["TV".toList, "P12".toList]) =
      Refinery.joinSpace (["TV".toList, "P12".toList].filter
        (Refinery.alnumKeep Refinery.defaultConfig))) ∧
    (Refinery.RemoveAllNumbersWordsExcept Refinery.defaultConfig
        (Refinery.joinSpace ["TV".toList, "P12".toList]) =
      Refinery.joinSpace (["TV".toList, "P12".toList].filter
        (Refinery.numericKeep Refinery.defaultConfig))) ∧
    (Refinery.RemoveWordsByMinLen Refinery.defaultConfig
        (Refinery.joinSpace ["TV".toList, "P12".toList]) =
      Refinery.joinSpace (["TV".toList, "P12".toList].filter
        (Refinery.minLenKeep Refinery.defaultConfig))) ∧
    (Refinery.RemoveAllConsonantsWords Refinery.defaultConfig
        (Refinery.joinSpace ["TV".toList, "P12".toList]) =
      Refinery.joinSpace (["TV".toList, "P12".toList].filter
        (Refinery.vowelKeep Refinery.defaultConfig))) ∧
    (∀ w ∈ Refinery.defaultConfig.toKeep,
      Refinery.scanPC false w = w ∧
      Refinery.alnumKeep Refinery.defaultConfig w = true ∧
      Refinery.numericKeep Refinery.defaultConfig w = true ∧
      Refinery.minLenKeep Refinery.defaultConfig w = true ∧
      Refinery.vowelKeep Refinery.defaultConfig w = true)) :=
  ⟨by decide,
    C6_keep_tokens_bypass_filters ["TV".toList, "P12".toList] (by decide)⟩

/-- C7 counterexample: the claim that no pipeline step ever deletes an
occurrence of the letter enye is false — the consonant-word filter is a
pipeline step and deletes the token `ññ` entirely. -/
theorem C7_counterexample :
    ∃ step ∈ Refinery.pipeline Refinery.defaultConfig,
      ∃ s : Refinery.Text,
        Refinery.enyeCount (step s) < Refinery.enyeCount s :=
  ⟨Refinery.RemoveAllConsonantsWords Refinery.defaultConfig,
    by simp [Refinery.pipeline], ['ñ', 'ñ'], by decide⟩

/-- C7 (amended): the character-level steps of the v1 pipeline — mojibake
fixing, prefixed-code removal, accent normalization, upper- and
lower-casing, separator replacement, whitespace collapsing, special-char
removal, stop-word removal, period-code removal, and numeric-token
removal — preserve the number of occurrences of the letter enye (either
case) in every input; only the solicitante scrub and the remaining
token filters can delete `ñ`. -/
theorem C7_enye_preserved_by_nonfiltering_steps (s : Refinery.Text) :
    Refinery.enyeCount (Refinery.FixMojibakeEncoding
        Refinery.defaultConfig s) = Refinery.enyeCount s ∧
    Refinery.enyeCount (Refinery.RemoveAdvancedPrefixedCodes
        Refinery.defaultConfig s) = Refinery.enyeCount s ∧
    Refinery.enyeCount (Refinery.NormalizeSpanishAccents
        Refinery.defaultConfig s) = Refinery.enyeCount s ∧
    Refinery.enyeCount (Refinery.MakeUppercase
        Refinery.defaultConfig s) = Refinery.enyeCount s ∧
    Refinery.enyeCount (Refinery.ReplaceSeparators
        Refinery.defaultConfig s) = Refinery.enyeCount s ∧
    Refinery.enyeCount (Refinery.RemoveMultipleWhitespace
        Refinery.defaultConfig s) = Refinery.enyeCount s ∧
    Refinery.enyeCount (Refinery.RemoveSpecialChars
        Refinery.defaultConfig s) = Refinery.enyeCount s ∧
    Refinery.enyeCount (Refinery.RemoveWordsFromList
        Refinery.defaultConfig s) = Refinery.enyeCount s ∧
    Refinery.enyeCount (Refinery.RemovePeriodCodes
        Refinery.defaultConfig s) = Refinery.enyeCount s ∧
    Refinery.enyeCount (Refinery.RemoveAllNumbersWordsExcept
        Refinery.defaultConfig s) = Refinery.enyeCount s ∧
    Refinery.enyeCount (Refinery.MakeLowercase
        Refinery.defaultConfig s) = Refinery.enyeCount s :=
  ⟨rfl, Refinery.enyeCount_RemoveAdvancedPrefixedCodes s,
    Refinery.enyeCount_NormalizeSpanishAccents s,
    Refinery.enyeCount_MakeUppercase s,
    Refinery.enyeCount_ReplaceSeparators s,
    Refinery.enyeCount_RemoveMultipleWhitespace s,
    Refinery.enyeCount_RemoveSpecialChars s,
    Refinery.enyeCount_RemoveWordsFromList s,
    Refinery.enyeCount_RemovePeriodCodes s,
    Refinery.enyeCount_RemoveAllNumbersWordsExcept s,
    Refinery.enyeCount_MakeLowercase s⟩

/-- C10: for every input, `Process` under the default v1 configuration
returns a space-join of nonempty tokens made only of lowercase ASCII
letters, digits and the lowercase enye (hence single spaces between
tokens and no leading or trailing whitespace); in particular the empty
and the all-whitespace inputs map to the empty string. -/
theorem C10_process_normal_form :
    (∀ t : Refinery.Text, ∃ ws : List Refinery.Text,
       Refinery.Process Refinery.defaultConfig t = Refinery.joinSpace ws ∧
       ws.all (fun w => !w.isEmpty && w.all Refinery.nfChar) = true) ∧
    Refinery.Process Refinery.defaultConfig [] = [] ∧
    Refinery.Process Refinery.defaultConfig ("   ".toList) = [] :=
  ⟨Refinery.process_normal_form, by decide, by decide⟩
